import Mathlib

/-!
Verification of the lemmy `update.py` pinning script.

The script is embedded shallowly: strings are `List Char`, the GitHub tag
API is an oracle `Nat → List (List Char)` mapping a page number to the list
of tag names on that page, and the two external subprocesses
(`nix-prefetch-github`, `nix-build`) are oracles supplying their observable
outputs (exit code, stderr text, JSON checksum field).  Python exceptions
are modelled with `Except`.

The semantic-version library used by the script (python-semver 3) is
embedded from its published source: `Version.parse` is the anchored
semver.org regular expression (which notably does not accept a leading
"v"), and comparison is the library's `compare` built on `_nat_cmp`.
Digits are modelled as ASCII digits (the Python regexes would additionally
accept non-ASCII unicode decimal digits, which no real tag uses).
-/

/-- Equality of `Except` values is decidable (needed to `decide` facts
about modelled Python functions that can raise). -/
instance exceptDecEq {ε α : Type} [DecidableEq ε] [DecidableEq α] :
    DecidableEq (Except ε α)
  | .ok a, .ok b =>
    if h : a = b then .isTrue (by rw [h]) else .isFalse (by intro hc; cases hc; exact h rfl)
  | .ok _, .error _ => .isFalse (by intro hc; cases hc)
  | .error _, .ok _ => .isFalse (by intro hc; cases hc)
  | .error e, .error f =>
    if h : e = f then .isTrue (by rw [h]) else .isFalse (by intro hc; cases hc; exact h rfl)

namespace LemmyUpdate

/-! ### Python primitive comparisons -/

/-- Python 3 `cmp(a, b) = (a > b) - (a < b)` on integers, as an `Ordering`. -/
def pyCmp (a b : Nat) : Ordering :=
  if a < b then .lt else if b < a then .gt else .eq

/-- Python string comparison is lexicographic on code points. -/
def charCmp (a b : Char) : Ordering := pyCmp a.toNat b.toNat

/-- Generic lexicographic comparison of lists (a strict prefix is smaller),
matching Python's comparison of strings and lists. -/
def lexCmp (cmp : α → α → Ordering) : List α → List α → Ordering
  | [], [] => .eq
  | [], _ :: _ => .lt
  | _ :: _, [] => .gt
  | a :: as, b :: bs =>
    match cmp a b with
    | .eq => lexCmp cmp as bs
    | o => o

/-! ### Python string helpers -/

/-- Python `str.split(sep)` for a one-character separator:
`"".split(".") == [""]`, `".".split(".") == ["", ""]`. -/
def splitOnChar (sep : Char) : List Char → List (List Char)
  | [] => [[]]
  | c :: cs =>
    let r := splitOnChar sep cs
    if c = sep then [] :: r
    else
      match r with
      | t :: ts => (c :: t) :: ts
      | [] => [[c]]

/-- Whitespace recognized by Python `str.split()` (ASCII part). -/
def isPySpace (c : Char) : Bool :=
  c = ' ' || c = '\t' || c = '\n' || c = '\r' || c = '\x0b' || c = '\x0c'

/-- Helper for `splitWs`; `acc` holds the current token reversed. -/
def splitWsAux : List Char → List Char → List (List Char)
  | [], acc => if acc.isEmpty then [] else [acc.reverse]
  | c :: cs, acc =>
    if isPySpace c then
      if acc.isEmpty then splitWsAux cs []
      else acc.reverse :: splitWsAux cs []
    else splitWsAux cs (c :: acc)

/-- Python `str.split()` with no argument: split on whitespace runs,
discarding empty tokens. -/
def splitWs (cs : List Char) : List (List Char) := splitWsAux cs []

/-- Python `sep.join`-style inverse of `splitOnChar`. -/
def joinChar (sep : Char) : List (List Char) → List Char
  | [] => []
  | l :: ls => l ++ (ls.flatMap fun x => sep :: x)

/-! ### semver: parsing (python-semver 3 `Version.parse`) -/

/-- `Version` as stored by python-semver: the prerelease and build are kept
as the raw matched substrings (`None` when absent). -/
structure Version where
  major : Nat
  minor : Nat
  patch : Nat
  prerelease : Option (List Char)
  build : Option (List Char)
deriving DecidableEq

def digitVal (c : Char) : Nat := c.toNat - 48

/-- Value of a big-endian decimal digit string (Python `int(text)`). -/
def charsToNat (cs : List Char) : Nat :=
  cs.foldl (fun a c => a * 10 + digitVal c) 0

/-- The regex alternative `0|[1-9]\d*` applied to an (all-digit) token:
nonempty and no leading zero unless the token is exactly "0". -/
def validNumCore (cs : List Char) : Bool :=
  !cs.isEmpty && (cs = ['0'] || cs.head? != some '0')

/-- Characters allowed in prerelease/build identifiers: `[0-9a-zA-Z-]`. -/
def isIdentChar (c : Char) : Bool := c.isDigit || c.isAlpha || c = '-'

/-- One prerelease identifier: `0|[1-9]\d*|\d*[a-zA-Z-][0-9a-zA-Z-]*`,
i.e. nonempty, all chars in `[0-9a-zA-Z-]`, and if purely numeric then no
leading zero. -/
def validPreIdent (cs : List Char) : Bool :=
  !cs.isEmpty && cs.all isIdentChar &&
    (!cs.all Char.isDigit || validNumCore cs)

/-- One build identifier: `[0-9a-zA-Z-]+`. -/
def validBuildIdent (cs : List Char) : Bool :=
  !cs.isEmpty && cs.all isIdentChar

/-- A syntactically valid prerelease string: dot-separated valid
identifiers (what the regex matches after `-`). -/
def preValid (p : List Char) : Bool := (splitOnChar '.' p).all validPreIdent

/-- A syntactically valid build string: dot-separated valid identifiers. -/
def buildValid (b : List Char) : Bool := (splitOnChar '.' b).all validBuildIdent

/-- Validity of an optional prerelease. -/
def optPreValid : Option (List Char) → Bool
  | none => true
  | some p => preValid p

/-- Parse one numeric component followed by a literal dot. -/
def parseNumDot (cs : List Char) : Option (Nat × List Char) :=
  let ds := cs.takeWhile Char.isDigit
  let rest := cs.drop ds.length
  if validNumCore ds then
    match rest with
    | '.' :: r => some (charsToNat ds, r)
    | _ => none
  else none

/-- Parse the patch component (no trailing dot required). -/
def parseNumEnd (cs : List Char) : Option (Nat × List Char) :=
  let ds := cs.takeWhile Char.isDigit
  let rest := cs.drop ds.length
  if validNumCore ds then some (charsToNat ds, rest) else none

/-- After the (possible) prerelease has been taken, the remainder must be
empty or a `+build`; validate both parts. -/
def parseTailAux (pre : Option (List Char)) (r4 : List Char) :
    Option (Option (List Char) × Option (List Char)) :=
  match r4 with
  | [] => if optPreValid pre then some (pre, none) else none
  | c :: b =>
    if c = '+' then
      (if optPreValid pre && buildValid b then some (pre, some b) else none)
    else none

/-- Parse the optional `-prerelease` and `+build` suffixes after the patch
component.  `'+'` cannot occur inside a prerelease, and the regex is
anchored, so taking the prerelease up to the first `'+'` is equivalent to
the regex match. -/
def parseTail (r3 : List Char) : Option (Option (List Char) × Option (List Char)) :=
  match r3 with
  | [] => parseTailAux none []
  | c :: r =>
    if c = '-' then
      parseTailAux (some (r.takeWhile fun x => x != '+')) (r.dropWhile fun x => x != '+')
    else parseTailAux none (c :: r)

/-- python-semver `Version.parse` (`None` result models the `ValueError`).
The regex is `^(0|[1-9]\d*)\.(0|[1-9]\d*)\.(0|[1-9]\d*)`
`(?:-(pre))?(?:\+(build))?$`; in particular a leading `v` is rejected. -/
def parseVersion (cs : List Char) : Option Version := do
  let (maj, r1) ← parseNumDot cs
  let (mino, r2) ← parseNumDot r1
  let (pat, r3) ← parseNumEnd r2
  let (pre, bld) ← parseTail r3
  pure ⟨maj, mino, pat, pre, bld⟩

/-! ### semver: comparison (python-semver 3 `compare` / `_nat_cmp`) -/

/-- A prerelease identifier after `_nat_cmp`'s
`int(x) if re.match("^\d+$", x) else x` conversion. -/
inductive PreId where
  | num (n : Nat)
  | str (s : List Char)
deriving DecidableEq

/-- `_nat_cmp`'s `convert`. -/
def convertId (cs : List Char) : PreId :=
  if !cs.isEmpty && cs.all Char.isDigit then .num (charsToNat cs) else .str cs

/-- `cmp_prerelease_tag`: ints compare numerically and sort before strings;
strings compare lexicographically. -/
def pcmp : PreId → PreId → Ordering
  | .num a, .num b => pyCmp a b
  | .num _, .str _ => .lt
  | .str _, .num _ => .gt
  | .str a, .str b => lexCmp charCmp a b

/-- The `for sub_a, sub_b in zip(...)` walk: first non-equal pairwise
comparison, `eq` if the common prefix ties. -/
def zipWalk : List PreId → List PreId → Ordering
  | a :: as, b :: bs =>
    match pcmp a b with
    | .eq => zipWalk as bs
    | o => o
  | _, _ => .eq

def partsOf (a : List Char) : List PreId := (splitOnChar '.' a).map convertId

/-- `_nat_cmp(a, b)`: walk the zipped converted parts, then fall back to
comparing the raw string lengths. -/
def natCmp (a b : List Char) : Ordering :=
  match zipWalk (partsOf a) (partsOf b) with
  | .eq => pyCmp a.length b.length
  | o => o

/-- `a or ""` on an optional prerelease. -/
def orEmpty : Option (List Char) → List Char
  | none => []
  | some p => p

/-- Python falsiness of an optional prerelease string (`not rc`). -/
def preFalsy : Option (List Char) → Bool
  | none => true
  | some p => p.isEmpty

/-- The prerelease part of python-semver `compare`:
`rccmp = _nat_cmp(rc1, rc2)`; if it ties the versions are equal, otherwise
an absent prerelease sorts last. -/
def preCmp (p q : Option (List Char)) : Ordering :=
  if natCmp (orEmpty p) (orEmpty q) = .eq then .eq
  else if preFalsy p then .gt
  else if preFalsy q then .lt
  else natCmp (orEmpty p) (orEmpty q)

/-- python-semver `Version.compare`: numeric triple lexicographically, then
the prerelease comparison.  Build metadata is ignored. -/
def vcmp (v w : Version) : Ordering :=
  match pyCmp v.major w.major with
  | .eq =>
    match pyCmp v.minor w.minor with
    | .eq =>
      match pyCmp v.patch w.patch with
      | .eq => preCmp v.prerelease w.prerelease
      | o => o
    | o => o
  | o => o

/-- A `Version` whose prerelease, when present, is syntactically valid —
an invariant of every `parseVersion` result. -/
def versionPreValid (v : Version) : Bool := optPreValid v.prerelease

/-! ### `get_latest_tag` -/

/-- `tag["name"]` is the only field the script reads from a tag object, so a
page response is modelled as the list of tag names on that page; the whole
API is an oracle from page number to response. -/
def Pages := Nat → List (List Char)

/-- Whether one tag survives the loop body's filter: it must parse, and a
prerelease is skipped unless `prerelease=True` was passed.  (A parsed
`semver.Version` object is always truthy, so the redundant
`semver.Version.parse(tag["name"]) and` conjunct is vacuous.) -/
def keptTag (prerelease : Bool) (name : List Char) : Bool :=
  match parseVersion name with
  | none => false
  | some v => !(!prerelease && !(preFalsy v.prerelease))

/-- The `while i <= 100` pagination loop, collecting filtered tags in page
order.  The loop increments `i` before requesting page `i`, so it is called
with `i = 0` and fuel `101 - i = 101`; it stops early at the first page
whose (unfiltered) response is empty. -/
def tagPagesLoop (pages : Pages) (prerelease : Bool) : Nat → Nat → List (List Char)
  | 0, _ => []
  | fuel + 1, i =>
    let resp := pages (i + 1)
    if resp.isEmpty then []
    else resp.filter (keptTag prerelease) ++ tagPagesLoop pages prerelease fuel (i + 1)

/-- The `tags` list accumulated by `get_latest_tag`. -/
def collectedTags (pages : Pages) (prerelease : Bool) : List (List Char) :=
  tagPagesLoop pages prerelease 101 0

/-- The same loop without the filter: every tag name returned by the
paginated listing, in order. -/
def rawPagesLoop (pages : Pages) : Nat → Nat → List (List Char)
  | 0, _ => []
  | fuel + 1, i =>
    let resp := pages (i + 1)
    if resp.isEmpty then []
    else resp ++ rawPagesLoop pages fuel (i + 1)

def rawTags (pages : Pages) : List (List Char) := rawPagesLoop pages 101 0

/-- The page numbers the loop requests, in order (the final empty page, when
one is reached, is itself requested before the loop breaks). -/
def requestLoop (pages : Pages) : Nat → Nat → List Nat
  | 0, _ => []
  | fuel + 1, i =>
    let resp := pages (i + 1)
    (i + 1) :: (if resp.isEmpty then [] else requestLoop pages fuel (i + 1))

def requestedPages (pages : Pages) : List Nat := requestLoop pages 101 0

/-- The sort key `lambda name: semver.Version.parse(name)`.  Every element
of `tags` parses (the loop filtered out unparseable names), so the default
is never used; it is only there to make the Lean function total. -/
def keyOf (s : List Char) : Version := (parseVersion s).getD ⟨0, 0, 0, none, none⟩

/-- The ordering `sorted` uses: Python's stable sort may place `a` before
`b` exactly when `not (key(b) < key(a))`, where `Version.__lt__` is
`compare < 0`. -/
def tagLe (a b : List Char) : Bool := !(vcmp (keyOf b) (keyOf a) == .lt)

/-- The failure of `sorted(tags, ...)[-1]` on an empty `tags` list (an
uncaught `IndexError` in the script; the specification calls this
`EmptyResultError`). -/
inductive TagError where
  | emptyResult
deriving DecidableEq

/-- `get_latest_tag(owner, repo, prerelease)` given the tag-listing oracle:
paginate and filter, then `sorted(tags, key=semver.Version.parse)[-1]`. -/
def get_latest_tag (pages : Pages) (prerelease : Bool) : Except TagError (List Char) :=
  let tags := collectedTags pages prerelease
  match (tags.mergeSort tagLe).getLast? with
  | some t => .ok t
  | none => .error .emptyResult

/-! ### `get_fod_hash` -/

inductive FodError where
  /-- `raise ValueError("Expected nix-build to fail")` -/
  | unexpectedSuccess
  /-- `raise ValueError("No fixed output hash found")` -/
  | hashNotFound
  /-- the uncaught `IndexError` from `cols[1]` on a line whose only
  whitespace-separated token is `"got:"` -/
  | indexOut
deriving DecidableEq

def gotMarker : List Char := "got:".data

/-- The scan over (already reversed) stderr lines: the first line whose
first whitespace-separated token is `"got:"` yields its second token. -/
def scanGot : List (List Char) → Except FodError (List Char)
  | [] => .error .hashNotFound
  | line :: rest =>
    match splitWs line with
    | c0 :: cs =>
      if c0 = gotMarker then
        match cs with
        | c1 :: _ => .ok c1
        | [] => .error .indexOut
      else scanGot rest
    | [] => scanGot rest

/-- `get_fod_hash(attr)` given the `nix-build` subprocess's exit code and
decoded stderr: expect exit code 1, then scan
`stderr.split("\n")[::-1]` for a `"got:"` line. -/
def get_fod_hash (returncode : Int) (stderr : List Char) : Except FodError (List Char) :=
  if returncode ≠ 1 then .error .unexpectedSuccess
  else scanGot (splitOnChar '\n' stderr).reverse

/-! ### `prefetch_github` checksum normalization -/

def shaPrefix : List Char := "sha256-".data

/-- The tail of `prefetch_github`: the `"sha256"` field of the
`nix-prefetch-github` JSON output gets the standard prefix prepended when
missing ("work around bug in nix-prefetch-github"). -/
def normalizeSha256 (sha : List Char) : List Char :=
  if shaPrefix.isPrefixOf sha then sha else shaPrefix ++ sha

/-! ### The `Pin` record and `Pin.write` -/

/-- The `Pin` dataclass: six data fields plus the transient output path. -/
structure Pin where
  serverVersion : List Char
  uiVersion : List Char
  serverSha256 : List Char := []
  serverCargoSha256 : List Char := []
  uiSha256 : List Char := []
  uiYarnDepsSha256 : List Char := []
  filename : Option (List Char) := none
deriving DecidableEq

/-- Lowercase hex digit, as printed by Python's `json` module. -/
def hexDig (n : Nat) : Char :=
  if n < 10 then Char.ofNat (48 + n) else Char.ofNat (87 + n)

/-- A `\uXXXX` escape for a 16-bit value. -/
def uEsc (n : Nat) : List Char :=
  ['\\', 'u', hexDig (n / 4096 % 16), hexDig (n / 256 % 16),
   hexDig (n / 16 % 16), hexDig (n % 16)]

/-- `json.dump`'s default (`ensure_ascii=True`) escaping of one character:
short escapes for `"` `\` and the five named controls, printable ASCII
verbatim, everything else `\uXXXX` (a surrogate pair beyond the BMP). -/
def escChar (c : Char) : List Char :=
  if c = '"' then ['\\', '"']
  else if c = '\\' then ['\\', '\\']
  else if c = '\x08' then ['\\', 'b']
  else if c = '\x0c' then ['\\', 'f']
  else if c = '\n' then ['\\', 'n']
  else if c = '\r' then ['\\', 'r']
  else if c = '\t' then ['\\', 't']
  else if 32 ≤ c.toNat && c.toNat ≤ 126 then [c]
  else if c.toNat < 65536 then uEsc c.toNat
  else uEsc (55296 + (c.toNat - 65536) / 1024) ++ uEsc (56320 + (c.toNat - 65536) % 1024)

/-- A JSON string literal: quote, escaped characters, quote. -/
def escStr (s : List Char) : List Char := '"' :: s.flatMap escChar ++ ['"']

/-- `json.dump(..., indent=2)` renders each key as
`two spaces, quoted key, colon, space` (none of the six key names needs
escaping). -/
def jsonKey (k : List Char) : List Char := [' ', ' ', '"'] ++ k ++ ['"', ':', ' ']

/-- The exact bytes `Pin.write` produces: `dataclasses.asdict(self)` minus
the `filename` key, dumped with `indent=2` (keys in field-declaration
order), plus the explicit trailing newline. -/
def pinJson (p : Pin) : List Char :=
  ['\x7b', '\n']
  ++ jsonKey "serverVersion".data ++ escStr p.serverVersion ++ [',', '\n']
  ++ jsonKey "uiVersion".data ++ escStr p.uiVersion ++ [',', '\n']
  ++ jsonKey "serverSha256".data ++ escStr p.serverSha256 ++ [',', '\n']
  ++ jsonKey "serverCargoSha256".data ++ escStr p.serverCargoSha256 ++ [',', '\n']
  ++ jsonKey "uiSha256".data ++ escStr p.uiSha256 ++ [',', '\n']
  ++ jsonKey "uiYarnDepsSha256".data ++ escStr p.uiYarnDepsSha256 ++ ['\n', '\x7d', '\n']

inductive WriteError where
  /-- `raise ValueError("No filename set")` -/
  | noFilename
deriving DecidableEq

/-- Python falsiness of `self.filename` (`None` or the empty string). -/
def filenameFalsy : Option (List Char) → Bool
  | none => true
  | some f => f.isEmpty

/-- `Pin.write`: `open(filename, "w")` truncates whatever was in the file
and rewrites it wholesale, so the argument carrying the previous contents
is (deliberately) ignored; the result is the new file contents. -/
def pinWriteFile (p : Pin) (_oldContents : Option (List Char)) :
    Except WriteError (Option (List Char)) :=
  if filenameFalsy p.filename then .error .noFilename else .ok (some (pinJson p))

/-! ### A reader for the pin file

Modelled from the spec: the build system that consumes `pin.json` is out of
scope of the script (nothing under `src/` reads the file back), so the
reader below is modelled from the spec's description of the output format —
UTF-8 JSON, 2-space indentation, six fixed keys in declared order, trailing
newline, JSON string escapes. -/

def hexVal (c : Char) : Option Nat :=
  if '0' ≤ c && c ≤ '9' then some (c.toNat - 48)
  else if 'a' ≤ c && c ≤ 'f' then some (c.toNat - 87)
  else if 'A' ≤ c && c ≤ 'F' then some (c.toNat - 55)
  else none

/-- The named JSON escapes. -/
def escMap : Char → Option Char
  | '"' => some '"'
  | '\\' => some '\\'
  | '/' => some '/'
  | 'b' => some '\x08'
  | 'f' => some '\x0c'
  | 'n' => some '\n'
  | 'r' => some '\r'
  | 't' => some '\t'
  | _ => none

/-- Prepend a decoded character to a scan result. -/
def consPush (c : Char) : Option (List Char × List Char) → Option (List Char × List Char)
  | some (s, r) => some (c :: s, r)
  | none => none

/-- Four hex digits as a 16-bit value. -/
def hex4 (a b c d : Char) : Option Nat :=
  match hexVal a, hexVal b, hexVal c, hexVal d with
  | some ha, some hb, some hc, some hd => some (ha * 4096 + hb * 256 + hc * 16 + hd)
  | _, _, _, _ => none

mutual

/-- Decode a JSON string body up to and including its closing quote,
returning the decoded text and the remaining input.  Handles the named
escapes, `\uXXXX`, and surrogate pairs. -/
def scanJString : List Char → Option (List Char × List Char)
  | [] => none
  | c :: rest =>
    if c = '"' then some ([], rest)
    else if c = '\\' then scanEsc rest
    else if c.toNat < 32 then none
    else consPush c (scanJString rest)

/-- After a backslash. -/
def scanEsc : List Char → Option (List Char × List Char)
  | [] => none
  | e :: rest2 =>
    if e = 'u' then scanHex rest2
    else
      match escMap e with
      | some ch => consPush ch (scanJString rest2)
      | none => none

/-- After `\u`: four hex digits, possibly a high surrogate. -/
def scanHex : List Char → Option (List Char × List Char)
  | a :: b :: c2 :: d :: rest3 =>
    (match hex4 a b c2 d with
     | some n =>
       if 55296 ≤ n ∧ n ≤ 56319 then scanLow n rest3
       else if 56320 ≤ n ∧ n ≤ 57343 then none
       else consPush (Char.ofNat n) (scanJString rest3)
     | none => none)
  | _ => none

/-- After a high surrogate `\uXXXX`: expect the `\uXXXX` low half and
recombine. -/
def scanLow (n : Nat) : List Char → Option (List Char × List Char)
  | b1 :: u1 :: e4 :: f4 :: g4 :: h4 :: rest4 =>
    if b1 = '\\' ∧ u1 = 'u' then
      match hex4 e4 f4 g4 h4 with
      | some m =>
        if 56320 ≤ m ∧ m ≤ 57343 then
          consPush (Char.ofNat (65536 + (n - 55296) * 1024 + (m - 56320)))
            (scanJString rest4)
        else none
      | none => none
    else none
  | _ => none

end

/-- Consume an exact literal prefix. -/
def expectChars : List Char → List Char → Option (List Char)
  | [], s => some s
  | c :: cs, d :: ds => if c = d then expectChars cs ds else none
  | _ :: _, [] => none

/-- One `  "key": "value"` entry (consuming through the value's closing
quote). -/
def parseField (key : List Char) (s : List Char) : Option (List Char × List Char) :=
  (expectChars (jsonKey key ++ ['"']) s).bind scanJString

/-- The six data fields of a pin file, as read back by the consumer. -/
structure PinFields where
  serverVersion : List Char
  uiVersion : List Char
  serverSha256 : List Char
  serverCargoSha256 : List Char
  uiSha256 : List Char
  uiYarnDepsSha256 : List Char
deriving DecidableEq

/-- Read back a pin file: the six fields, demanding exactly the layout
`Pin.write` is specified to emit. -/
def parsePinJson (s : List Char) : Option PinFields := do
  let s ← expectChars ['\x7b', '\n'] s
  let (sv, s) ← parseField "serverVersion".data s
  let s ← expectChars [',', '\n'] s
  let (uv, s) ← parseField "uiVersion".data s
  let s ← expectChars [',', '\n'] s
  let (ss, s) ← parseField "serverSha256".data s
  let s ← expectChars [',', '\n'] s
  let (cs, s) ← parseField "serverCargoSha256".data s
  let s ← expectChars [',', '\n'] s
  let (us, s) ← parseField "uiSha256".data s
  let s ← expectChars [',', '\n'] s
  let (ys, s) ← parseField "uiYarnDepsSha256".data s
  let s ← expectChars ['\n', '\x7d', '\n'] s
  if s.isEmpty then pure ⟨sv, uv, ss, cs, us, ys⟩ else none

/-! ### The orchestrator (`__main__`, `make_server_pin`, `make_ui_pin`) -/

/-- Events observable in an orchestrator run, in program order. -/
inductive Event where
  /-- a `nix-prefetch-github owner repo --rev rev` invocation -/
  | prefetchCall (owner repo rev : List Char)
  /-- a `nix-build -A attr` hash probe -/
  | fodCall (attr : List Char)
  /-- a `pin.write()` of the full record -/
  | writeRec (p : Pin)
  /-- the `package.json` download at the resolved UI version -/
  | fetchPackageJson (rev : List Char)
deriving DecidableEq

/-- External collaborators of the orchestrator.  `prefetchRaw` is the
`"sha256"` field of the `nix-prefetch-github` JSON output (the subprocess
is modelled on its success path; a failure there would abort before any
event that follows it).  `fodRc`/`fodStderr` are the `nix-build` probe's
exit code and stderr for a given attribute. -/
structure Env where
  prefetchRaw : List Char → List Char → List Char → List Char
  fodRc : List Char → Int
  fodStderr : List Char → List Char

def ownerStr : List Char := "LemmyNet".data
def serverRepoStr : List Char := "lemmy".data
def uiRepoStr : List Char := "lemmy-ui".data
def pinPath : List Char := "pin.json".data

/-- `prefetch_github` result: the raw checksum, normalized. -/
def prefetchGithubRun (env : Env) (owner repo rev : List Char) : List Char :=
  normalizeSha256 (env.prefetchRaw owner repo rev)

/-- `make_server_pin`: prefetch, assign `serverSha256`, write; probe,
assign `serverCargoSha256`, write.  Returns the emitted events and the
final pin (or the error that aborted the run). -/
def make_server_pin_run (env : Env) (p : Pin) (attr : List Char) :
    List Event × Except FodError Pin :=
  let sha := prefetchGithubRun env ownerStr serverRepoStr p.serverVersion
  let p1 : Pin := { p with serverSha256 := sha }
  match get_fod_hash (env.fodRc attr) (env.fodStderr attr) with
  | .ok h =>
    let p2 : Pin := { p1 with serverCargoSha256 := h }
    ([.prefetchCall ownerStr serverRepoStr p.serverVersion, .writeRec p1,
      .fodCall attr, .writeRec p2], .ok p2)
  | .error e =>
    ([.prefetchCall ownerStr serverRepoStr p.serverVersion, .writeRec p1,
      .fodCall attr], .error e)

/-- `make_ui_pin`: download `package.json`, prefetch, assign `uiSha256`,
write; probe, assign `uiYarnDepsSha256`, write. -/
def make_ui_pin_run (env : Env) (p : Pin) (attr : List Char) :
    List Event × Except FodError Pin :=
  let sha := prefetchGithubRun env ownerStr uiRepoStr p.uiVersion
  let p1 : Pin := { p with uiSha256 := sha }
  match get_fod_hash (env.fodRc attr) (env.fodStderr attr) with
  | .ok h =>
    let p2 : Pin := { p1 with uiYarnDepsSha256 := h }
    ([.fetchPackageJson p.uiVersion, .prefetchCall ownerStr uiRepoStr p.uiVersion,
      .writeRec p1, .fodCall attr, .writeRec p2], .ok p2)
  | .error e =>
    ([.fetchPackageJson p.uiVersion, .prefetchCall ownerStr uiRepoStr p.uiVersion,
      .writeRec p1, .fodCall attr], .error e)

/-- The `__main__` block after version resolution: construct the `Pin` from
the two resolved versions (all four checksum fields at their empty
defaults), then run `make_server_pin` and, if it completed, `make_ui_pin`.
Notably there is no `pin.write()` between construction and
`make_server_pin`. -/
def mainRun (env : Env) (serverVersion uiVersion : List Char) : List Event :=
  let pin : Pin :=
    { serverVersion := serverVersion, uiVersion := uiVersion,
      serverSha256 := [], serverCargoSha256 := [], uiSha256 := [],
      uiYarnDepsSha256 := [], filename := some pinPath }
  let sr := make_server_pin_run env pin "lemmy-server".data
  match sr.2 with
  | .error _ => sr.1
  | .ok pin1 => sr.1 ++ (make_ui_pin_run env pin1 "lemmy-ui".data).1

/-- Checksum-acquisition events (the prefetch utility and the build
probe). -/
def isAcqEvent : Event → Bool
  | .prefetchCall _ _ _ => true
  | .fodCall _ => true
  | _ => false

/-- A write of a record whose four checksum fields are all still empty. -/
def isEmptyChecksumWrite : Event → Bool
  | .writeRec p =>
    p.serverSha256.isEmpty && p.serverCargoSha256.isEmpty
      && p.uiSha256.isEmpty && p.uiYarnDepsSha256.isEmpty
  | _ => false

/-- Whether a trace performs a full-record write with all four checksum
fields empty before its first checksum-acquisition step. -/
def persistedBeforeFirstAcq (tr : List Event) : Bool :=
  (tr.takeWhile fun e => !isAcqEvent e).any isEmptyChecksumWrite

/-! ### Concrete inputs used by counterexamples and witnesses -/

/-- The spec's scenario tag list, as the single page of an oracle. -/
def c2pages : Pages := fun i =>
  if i = 1 then ["v1.0.0".data, "v1.1.0-rc.1".data, "v1.0.5".data, "garbage".data] else []

/-- The same tag list without the `v` prefix. -/
def c2pagesUnprefixed : Pages := fun i =>
  if i = 1 then ["1.0.0".data, "1.1.0-rc.1".data, "1.0.5".data, "garbage".data] else []

/-- A one-tag listing. -/
def c1pages : Pages := fun i => if i = 1 then ["1.0.5".data] else []

/-- A sample environment for the orchestrator. -/
def envEx : Env :=
  { prefetchRaw := fun _ _ _ => "abc".data,
    fodRc := fun _ => 1,
    fodStderr := fun _ => "got: deadbeef".data }

/-- Whether a stderr line's first whitespace-separated token is the
`"got:"` marker. -/
def gotLine (l : List Char) : Bool :=
  match splitWs l with
  | c0 :: _ => c0 = gotMarker
  | [] => false

/-! ## Helper lemmas -/

theorem mergeSort_pair (le : List Char → List Char → Bool) (a b : List Char) :
    [a, b].mergeSort le = if le a b then [a, b] else [b, a] := by
  simp [List.mergeSort, List.merge]

/-- `get_latest_tag` with its `let` unfolded, convenient for rewriting. -/
theorem get_latest_tag_elim (pages : Pages) (prerelease : Bool) :
    get_latest_tag pages prerelease =
      (((collectedTags pages prerelease).mergeSort tagLe).getLast?).elim
        (Except.error .emptyResult) Except.ok := by
  show (match ((collectedTags pages prerelease).mergeSort tagLe).getLast? with
    | some t => Except.ok t
    | none => Except.error TagError.emptyResult) = _
  cases ((collectedTags pages prerelease).mergeSort tagLe).getLast? <;> rfl

theorem requestLoop_length_le (pages : Pages) :
    ∀ (fuel i : Nat), (requestLoop pages fuel i).length ≤ fuel := by
  intro fuel
  induction fuel with
  | zero => intro i; simp [requestLoop]
  | succ n ih =>
    intro i
    simp only [requestLoop]
    split
    · simp
    · simpa using ih (i + 1)

theorem scanGot_no_marker {ls : List (List Char)} (h : ∀ l ∈ ls, gotLine l = false) :
    scanGot ls = .error .hashNotFound := by
  induction ls with
  | nil => rfl
  | cons l rest ih =>
    have hl := h l (by simp)
    have hrest : ∀ x ∈ rest, gotLine x = false := fun x hx => h x (by simp [hx])
    simp only [scanGot]
    cases hw : splitWs l with
    | nil => exact ih hrest
    | cons c0 cs =>
      simp only [gotLine, hw] at hl
      simp only [decide_eq_false_iff_not] at hl
      simp [hl, ih hrest]

theorem scanGot_ok {ls : List (List Char)}
    (hex : ∃ l ∈ ls, gotLine l = true)
    (htok : ∀ l ∈ ls, gotLine l = true → 2 ≤ (splitWs l).length) :
    ∃ tok, scanGot ls = .ok tok := by
  induction ls with
  | nil => simp at hex
  | cons l rest ih =>
    simp only [scanGot]
    cases hw : splitWs l with
    | nil =>
      have : ∃ x ∈ rest, gotLine x = true := by
        rcases hex with ⟨x, hx, hg⟩
        rcases List.mem_cons.mp hx with rfl | hx'
        · simp [gotLine, hw] at hg
        · exact ⟨x, hx', hg⟩
      exact ih this (fun x hx => htok x (by simp [hx]))
    | cons c0 cs =>
      by_cases hc : c0 = gotMarker
      · have hg : gotLine l = true := by simp [gotLine, hw, hc]
        have h2 := htok l (by simp) hg
        rw [hw] at h2
        cases cs with
        | nil => simp at h2
        | cons c1 cr => simp [hc]
      · have : ∃ x ∈ rest, gotLine x = true := by
          rcases hex with ⟨x, hx, hg⟩
          rcases List.mem_cons.mp hx with rfl | hx'
          · simp [gotLine, hw] at hg; exact absurd hg hc
          · exact ⟨x, hx', hg⟩
        have hr := ih this (fun x hx => htok x (by simp [hx]))
        simpa [hc] using hr

theorem splitOnChar_no_sep (sep : Char) (l : List Char) (h : sep ∉ l) :
    splitOnChar sep l = [l] := by
  induction l with
  | nil => rfl
  | cons c cs ih =>
    have hc : c ≠ sep := fun hc => h (by simp [hc])
    have hcs : sep ∉ cs := fun hm => h (by simp [hm])
    simp only [splitOnChar, ih hcs]
    simp [hc]

theorem splitOnChar_append_cons (sep : Char) (l t : List Char) (h : sep ∉ l) :
    splitOnChar sep (l ++ sep :: t) = l :: splitOnChar sep t := by
  induction l with
  | nil => simp [splitOnChar]
  | cons c cs ih =>
    have hc : c ≠ sep := fun hc => h (by simp [hc])
    have hcs : sep ∉ cs := fun hm => h (by simp [hm])
    have ihr := ih hcs
    simp only [List.cons_append, splitOnChar, List.append_eq]
    rw [if_neg hc, ihr]

theorem joinChar_cons_cons (sep : Char) (l l2 : List Char) (rest : List (List Char)) :
    joinChar sep (l :: l2 :: rest) = l ++ sep :: joinChar sep (l2 :: rest) := by
  simp [joinChar]

theorem splitOnChar_joinChar (sep : Char) (ls : List (List Char))
    (h : ∀ l ∈ ls, sep ∉ l) (hne : ls ≠ []) :
    splitOnChar sep (joinChar sep ls) = ls := by
  induction ls with
  | nil => exact absurd rfl hne
  | cons l rest ih =>
    cases rest with
    | nil =>
      show splitOnChar sep (l ++ [].flatMap fun x => sep :: x) = [l]
      simpa using splitOnChar_no_sep sep l (h l (by simp))
    | cons l2 rest2 =>
      rw [joinChar_cons_cons,
        splitOnChar_append_cons sep l _ (h l (by simp)),
        ih (fun x hx => h x (by simp [hx])) (by simp)]

theorem scanGot_append_no_marker (ls1 ls2 : List (List Char))
    (h : ∀ l ∈ ls1, gotLine l = false) :
    scanGot (ls1 ++ ls2) = scanGot ls2 := by
  induction ls1 with
  | nil => rfl
  | cons l rest ih =>
    have hl := h l (by simp)
    have hrest : ∀ x ∈ rest, gotLine x = false := fun x hx => h x (by simp [hx])
    simp only [List.cons_append, scanGot]
    cases hw : splitWs l with
    | nil => exact ih hrest
    | cons c0 cs =>
      simp only [gotLine, hw, decide_eq_false_iff_not] at hl
      simp [hl, ih hrest]

/-- The filtering loop is the unfiltered loop followed by the filter. -/
theorem tagPagesLoop_filter (pages : Pages) (prerelease : Bool) :
    ∀ (fuel i : Nat),
      tagPagesLoop pages prerelease fuel i =
        (rawPagesLoop pages fuel i).filter (keptTag prerelease) := by
  intro fuel
  induction fuel with
  | zero => intro i; rfl
  | succ n ih =>
    intro i
    simp only [tagPagesLoop, rawPagesLoop]
    split
    · rfl
    · rw [List.filter_append, ih (i + 1)]

/-! ## C7: `EmptyResultError` exactly when nothing survives -/

/-- C7: `get_latest_tag` fails (with the `EmptyResultError` raised by
`sorted(tags, ...)[-1]` on an empty list) exactly when no tag of the
paginated listing survives the parse/prerelease filter — in particular
when the repository has zero tags — and returns a value in every other
case. -/
theorem latestTag_empty_result (pages : Pages) (prerelease : Bool) :
    (get_latest_tag pages prerelease = .error .emptyResult
      ↔ (rawTags pages).filter (keptTag prerelease) = [])
    ∧ (get_latest_tag pages prerelease = .error .emptyResult
        ∨ ∃ t, get_latest_tag pages prerelease = .ok t) := by
  have hfil : collectedTags pages prerelease = (rawTags pages).filter (keptTag prerelease) :=
    tagPagesLoop_filter pages prerelease 101 0
  rw [get_latest_tag_elim, ← hfil]
  cases h : ((collectedTags pages prerelease).mergeSort tagLe).getLast? with
  | none =>
    have hempty : collectedTags pages prerelease = [] := by
      have hm := List.getLast?_eq_none_iff.mp h
      have := congrArg List.length hm
      rw [List.length_mergeSort] at this
      exact List.length_eq_zero.mp this
    exact ⟨by simp [hempty], Or.inl rfl⟩
  | some t =>
    refine ⟨⟨fun habs => by simp at habs, fun hempty => ?_⟩, Or.inr ⟨t, by simp⟩⟩
    rw [hempty] at h
    simp at h

/-! ## C8: checksum normalization -/

/-- C8: `archiveChecksum`'s normalization of the raw prefetch checksum: a
value already carrying the `sha256-` prefix is returned unchanged, one
without it gets the prefix prepended, the result always starts with the
prefix, and the normalization is idempotent. -/
theorem prefetch_normalization (s : List Char) :
    shaPrefix.isPrefixOf (normalizeSha256 s) = true
    ∧ normalizeSha256 (normalizeSha256 s) = normalizeSha256 s
    ∧ (shaPrefix.isPrefixOf s = true → normalizeSha256 s = s)
    ∧ (shaPrefix.isPrefixOf s = false → normalizeSha256 s = shaPrefix ++ s) := by
  have happ : shaPrefix.isPrefixOf (shaPrefix ++ s) = true :=
    List.isPrefixOf_iff_prefix.mpr (List.prefix_append _ _)
  by_cases h : shaPrefix.isPrefixOf s = true
  · refine ⟨by simp [normalizeSha256, h], ?_,
      fun _ => by simp [normalizeSha256, h], ?_⟩
    · simp [normalizeSha256, h]
    · intro hf; rw [h] at hf; cases hf
  · have h' : shaPrefix.isPrefixOf s = false := Bool.eq_false_iff.mpr h
    refine ⟨?_, ?_, fun ht => absurd ht h, fun _ => by simp [normalizeSha256, h']⟩
    · simp only [normalizeSha256, h', Bool.false_eq_true, if_false]; exact happ
    · simp [normalizeSha256, h', happ]

/-- Witness for C8 at concrete checksums. -/
theorem prefetch_normalization_witness :
    normalizeSha256 "abc".data = "sha256-abc".data
    ∧ normalizeSha256 "sha256-abc".data = "sha256-abc".data := by
  constructor
  · have h := (prefetch_normalization "abc".data).2.2.2 (by decide)
    rw [h]; decide
  · exact (prefetch_normalization "sha256-abc".data).2.2.1 (by decide)

/-! ## C6: `get_fod_hash` error behaviour -/

/-- C6 counterexample: with exit code 1 and the diagnostic stream
consisting of the single line `"got:"` (a marker line with no second
token), the probe neither raises the two documented errors nor returns a
checksum — it dies with the uncaught `IndexError` from `cols[1]`. -/
theorem fod_hash_errors_counterexample :
    get_fod_hash 1 ("got:".data) = .error .indexOut := by decide

/-- C6 as amended: a non-1 exit code gives `UnexpectedSuccessError`; exit
code 1 with no marker line gives `HashNotFoundError`; exit code 1 with a
marker line gives a checksum **provided** every marker line has a second
whitespace-separated token (otherwise the `cols[1]` access is out of
bounds, see C10). -/
theorem fod_hash_errors_amended (rc : Int) (stderr : List Char) :
    (rc ≠ 1 → get_fod_hash rc stderr = .error .unexpectedSuccess)
    ∧ (rc = 1 → (∀ l ∈ splitOnChar '\n' stderr, gotLine l = false) →
        get_fod_hash rc stderr = .error .hashNotFound)
    ∧ (rc = 1 → (∃ l ∈ splitOnChar '\n' stderr, gotLine l = true) →
        (∀ l ∈ splitOnChar '\n' stderr, gotLine l = true → 2 ≤ (splitWs l).length) →
        ∃ tok, get_fod_hash rc stderr = .ok tok) := by
  refine ⟨fun h => by simp [get_fod_hash, h], fun h hno => ?_, fun h hex htok => ?_⟩
  · subst h
    simp only [get_fod_hash, if_neg (by omega : ¬ (1 : Int) ≠ 1)]
    exact scanGot_no_marker (fun l hl => hno l (List.mem_reverse.mp hl))
  · subst h
    simp only [get_fod_hash, if_neg (by omega : ¬ (1 : Int) ≠ 1)]
    exact scanGot_ok
      (by rcases hex with ⟨l, hl, hg⟩; exact ⟨l, List.mem_reverse.mpr hl, hg⟩)
      (fun l hl => htok l (List.mem_reverse.mp hl))

/-- Witness for C6 (amended) exercising all three branches at concrete
inputs. -/
theorem fod_hash_errors_amended_witness :
    get_fod_hash 0 ("anything".data) = .error .unexpectedSuccess
    ∧ get_fod_hash 1 ("hash mismatch".data) = .error .hashNotFound
    ∧ (get_fod_hash 1 ("x\ngot: abc".data)).isOk = true := by
  refine ⟨(fod_hash_errors_amended 0 ("anything".data)).1 (by omega),
    (fod_hash_errors_amended 1 ("hash mismatch".data)).2.1 rfl (by decide), ?_⟩
  obtain ⟨tok, htok⟩ :=
    (fod_hash_errors_amended 1 ("x\ngot: abc".data)).2.2 rfl
      ⟨"got: abc".data, by decide, by decide⟩ (by decide)
  rw [htok]; rfl

/-! ## C4: pagination bound -/

/-- C4 counterexample: with an oracle whose pages are never empty the loop
requests 101 pages, not at most 100 (`i` is incremented before the request
and the guard is `i <= 100`). -/
theorem pagination_cap_counterexample :
    ¬ ((requestedPages fun _ => [['a']]).length ≤ 100) := by decide

/-- C4 as amended: the pagination loop requests at most 101 pages for
every oracle (the loop is intrinsically terminating: the embedded loop
consumes explicit fuel `101 - i`). -/
theorem pagination_cap_amended (pages : Pages) :
    (requestedPages pages).length ≤ 101 :=
  requestLoop_length_le pages 101 0

/-! ## C2: the `v`-prefixed scenario -/

/-- C2 counterexample: on the spec's scenario list the call does *not*
return `"v1.0.5"` — python-semver rejects a leading `v`, so every tag of
the scenario is discarded as unparseable and the call fails. -/
theorem scenario_vtags_counterexample :
    get_latest_tag c2pages false ≠ .ok "v1.0.5".data := by
  have h : collectedTags c2pages false = [] := by decide
  rw [get_latest_tag_elim, h]
  simp

/-- C2 as amended: on the scenario list all four tags are unparseable
(leading `v`!) and the call fails with `EmptyResultError`; on the
corresponding unprefixed list the result is `"1.0.5"` as the scenario
intends. -/
theorem scenario_vtags_amended :
    get_latest_tag c2pages false = .error .emptyResult
    ∧ get_latest_tag c2pagesUnprefixed false = .ok "1.0.5".data := by
  constructor
  · have h : collectedTags c2pages false = [] := by decide
    rw [get_latest_tag_elim, h]
    simp
  · have h : collectedTags c2pagesUnprefixed false = ["1.0.0".data, "1.0.5".data] := by decide
    rw [get_latest_tag_elim, h, mergeSort_pair,
      show tagLe ("1.0.0".data) ("1.0.5".data) = true from by decide]
    rfl

/-! ## C5: reverse scan of the diagnostics -/

/-- C5: on a diagnostic stream whose lines are `pre`, then a `"got:"` line
with second token `tok`, then `post` containing no further marker line,
the probe returns `tok` — i.e. it scans in reverse line order and returns
the token following the *last* `"got:"` line in original order. -/
theorem fod_hash_reverse_scan (pre post : List (List Char)) (line tok : List Char)
    (more : List (List Char))
    (hnl : ∀ l ∈ pre ++ line :: post, '\n' ∉ l)
    (hline : splitWs line = gotMarker :: tok :: more)
    (hpost : ∀ l ∈ post, gotLine l = false) :
    get_fod_hash 1 (joinChar '\n' (pre ++ line :: post)) = .ok tok := by
  have h1 : ((1 : Int) ≠ 1) = False := by simp
  simp only [get_fod_hash, h1, if_false]
  rw [splitOnChar_joinChar '\n' _ hnl (by simp),
    List.reverse_append, List.reverse_cons, List.append_assoc,
    List.singleton_append,
    scanGot_append_no_marker _ _ (fun l hl => hpost l (List.mem_reverse.mp hl))]
  simp [scanGot, hline]

/-- Witness for C5: two `"got:"` lines; the returned token follows the
second (last-in-original-order) one. -/
theorem fod_hash_reverse_scan_witness :
    get_fod_hash 1 (joinChar '\n' (["got: aaa".data] ++ "got: bbb".data :: [])) =
      .ok ("bbb".data) :=
  fod_hash_reverse_scan ["got: aaa".data] [] ("got: bbb".data) ("bbb".data) []
    (by decide) (by decide) (by decide)

/-! ## C10: bare `"got:"` marker line -/

/-- C10: when the build fails (exit code 1) and the last marker line is
the bare token `"got:"` with no second token, the probe's `cols[1]` access
is out of bounds — an uncaught `IndexError`, not the documented
`HashNotFoundError`. -/
theorem fod_hash_bare_marker (pre post : List (List Char)) (line : List Char)
    (hnl : ∀ l ∈ pre ++ line :: post, '\n' ∉ l)
    (hline : splitWs line = [gotMarker])
    (hpost : ∀ l ∈ post, gotLine l = false) :
    get_fod_hash 1 (joinChar '\n' (pre ++ line :: post)) = .error .indexOut := by
  have h1 : ((1 : Int) ≠ 1) = False := by simp
  simp only [get_fod_hash, h1, if_false]
  rw [splitOnChar_joinChar '\n' _ hnl (by simp),
    List.reverse_append, List.reverse_cons, List.append_assoc,
    List.singleton_append,
    scanGot_append_no_marker _ _ (fun l hl => hpost l (List.mem_reverse.mp hl))]
  simp [scanGot, hline]

/-- Witness for C10: diagnostics `"hash mismatch\ngot:"` under exit code 1
give the out-of-bounds access, not `HashNotFoundError`. -/
theorem fod_hash_bare_marker_witness :
    get_fod_hash 1 (joinChar '\n' (["hash mismatch".data] ++ "got:".data :: [])) =
      .error .indexOut :=
  fod_hash_bare_marker ["hash mismatch".data] [] ("got:".data)
    (by decide) (by decide) (by decide)

/-! ## C9: pin file round trip -/

theorem hexVal_hexDig_fin : ∀ i : Fin 16, hexVal (hexDig i.val) = some i.val := by decide

theorem hexVal_hexDig (n : Nat) (h : n < 16) : hexVal (hexDig n) = some n :=
  hexVal_hexDig_fin ⟨n, h⟩

theorem hex4_uEsc (v : Nat) (hv : v < 65536) :
    hex4 (hexDig (v / 4096 % 16)) (hexDig (v / 256 % 16)) (hexDig (v / 16 % 16))
      (hexDig (v % 16)) = some v := by
  unfold hex4
  rw [hexVal_hexDig _ (Nat.mod_lt _ (by norm_num)),
    hexVal_hexDig _ (Nat.mod_lt _ (by norm_num)),
    hexVal_hexDig _ (Nat.mod_lt _ (by norm_num)),
    hexVal_hexDig _ (Nat.mod_lt _ (by norm_num))]
  show some _ = some v
  congr 1
  omega

theorem uEsc_cons (v : Nat) (t : List Char) :
    uEsc v ++ t = '\\' :: 'u' :: hexDig (v / 4096 % 16) :: hexDig (v / 256 % 16) ::
      hexDig (v / 16 % 16) :: hexDig (v % 16) :: t := rfl

/-- Scanning a named escape decodes to its character. -/
theorem scanJ_named (e ch : Char) (t : List Char) (hu : ¬ e = 'u') (hm : escMap e = some ch) :
    scanJString ('\\' :: e :: t) = consPush ch (scanJString t) := by
  rw [scanJString, if_neg (by decide), if_pos rfl, scanEsc, if_neg hu, hm]

/-- Scanning an ordinary (unescaped) character keeps it. -/
theorem scanJ_plain (c : Char) (t : List Char) (h1 : ¬ c = '"') (h2 : ¬ c = '\\')
    (h3 : ¬ c.toNat < 32) :
    scanJString (c :: t) = consPush c (scanJString t) := by
  rw [scanJString, if_neg h1, if_neg h2, if_neg h3]

set_option maxRecDepth 4096 in
/-- Scanning a non-surrogate `\uXXXX` escape decodes that code point. -/
theorem scanJ_uEsc (v : Nat) (t : List Char) (hv : v < 65536)
    (hs1 : ¬ (55296 ≤ v ∧ v ≤ 56319)) (hs2 : ¬ (56320 ≤ v ∧ v ≤ 57343)) :
    scanJString (uEsc v ++ t) = consPush (Char.ofNat v) (scanJString t) := by
  rw [uEsc_cons, scanJString, if_neg (by decide), if_pos rfl, scanEsc, if_pos rfl,
    scanHex, hex4_uEsc v hv]
  show (if 55296 ≤ v ∧ v ≤ 56319 then scanLow v t
    else if 56320 ≤ v ∧ v ≤ 57343 then none
    else consPush (Char.ofNat v) (scanJString t)) = _
  rw [if_neg hs1, if_neg hs2]

set_option maxRecDepth 4096 in
/-- Scanning a surrogate-pair escape decodes the astral code point. -/
theorem scanJ_surrogatePair (v : Nat) (t : List Char) (hlo : 65536 ≤ v) (hhi : v < 1114112) :
    scanJString (uEsc (55296 + (v - 65536) / 1024) ++ (uEsc (56320 + (v - 65536) % 1024) ++ t)) =
      consPush (Char.ofNat v) (scanJString t) := by
  rw [uEsc_cons, scanJString, if_neg (by decide), if_pos rfl, scanEsc, if_pos rfl,
    scanHex, hex4_uEsc _ (by omega)]
  show (if 55296 ≤ 55296 + (v - 65536) / 1024 ∧ 55296 + (v - 65536) / 1024 ≤ 56319 then
      scanLow (55296 + (v - 65536) / 1024) (uEsc (56320 + (v - 65536) % 1024) ++ t)
    else _) = _
  rw [if_pos (by constructor <;> omega), uEsc_cons, scanLow, if_pos ⟨rfl, rfl⟩,
    hex4_uEsc _ (by omega)]
  show (if 56320 ≤ 56320 + (v - 65536) % 1024 ∧ 56320 + (v - 65536) % 1024 ≤ 57343 then
      consPush (Char.ofNat (65536 + (55296 + (v - 65536) / 1024 - 55296) * 1024 +
        (56320 + (v - 65536) % 1024 - 56320))) (scanJString t)
    else none) = _
  rw [if_pos (by constructor <;> omega),
    show 65536 + (55296 + (v - 65536) / 1024 - 55296) * 1024 +
        (56320 + (v - 65536) % 1024 - 56320) = v from by omega]

/-- Scanning the escaped form of `s` followed by the closing quote yields
`s` back and leaves the rest untouched. -/
theorem scanJString_escBody (s : List Char) :
    ∀ rest : List Char, scanJString (s.flatMap escChar ++ '"' :: rest) = some (s, rest) := by
  induction s with
  | nil =>
    intro rest
    show scanJString ('"' :: rest) = some ([], rest)
    rw [scanJString, if_pos rfl]
  | cons c s' ih =>
    intro rest
    have hvalid : c.toNat < 55296 ∨ (57343 < c.toNat ∧ c.toNat < 1114112) := c.valid
    rw [List.flatMap_cons, List.append_assoc]
    by_cases h1 : c = '"'
    · subst h1
      rw [show escChar '"' = ['\\', '"'] from rfl]
      simp only [List.cons_append, List.nil_append]
      rw [scanJ_named '"' '"' _ (by decide) rfl, ih rest]
      rfl
    by_cases h2 : c = '\\'
    · subst h2
      rw [show escChar '\\' = ['\\', '\\'] from rfl]
      simp only [List.cons_append, List.nil_append]
      rw [scanJ_named '\\' '\\' _ (by decide) rfl, ih rest]
      rfl
    by_cases h3 : c = '\x08'
    · subst h3
      rw [show escChar '\x08' = ['\\', 'b'] from rfl]
      simp only [List.cons_append, List.nil_append]
      rw [scanJ_named 'b' '\x08' _ (by decide) rfl, ih rest]
      rfl
    by_cases h4 : c = '\x0c'
    · subst h4
      rw [show escChar '\x0c' = ['\\', 'f'] from rfl]
      simp only [List.cons_append, List.nil_append]
      rw [scanJ_named 'f' '\x0c' _ (by decide) rfl, ih rest]
      rfl
    by_cases h5 : c = '\n'
    · subst h5
      rw [show escChar '\n' = ['\\', 'n'] from rfl]
      simp only [List.cons_append, List.nil_append]
      rw [scanJ_named 'n' '\n' _ (by decide) rfl, ih rest]
      rfl
    by_cases h6 : c = '\r'
    · subst h6
      rw [show escChar '\r' = ['\\', 'r'] from rfl]
      simp only [List.cons_append, List.nil_append]
      rw [scanJ_named 'r' '\r' _ (by decide) rfl, ih rest]
      rfl
    by_cases h7 : c = '\t'
    · subst h7
      rw [show escChar '\t' = ['\\', 't'] from rfl]
      simp only [List.cons_append, List.nil_append]
      rw [scanJ_named 't' '\t' _ (by decide) rfl, ih rest]
      rfl
    by_cases h8 : (32 ≤ c.toNat && c.toNat ≤ 126) = true
    · have h8' : 32 ≤ c.toNat ∧ c.toNat ≤ 126 := by
        simpa [Bool.and_eq_true, decide_eq_true_eq] using h8
      rw [show escChar c = [c] from by
        simp only [escChar, if_neg h1, if_neg h2, if_neg h3, if_neg h4, if_neg h5,
          if_neg h6, if_neg h7]
        rw [if_pos h8]]
      simp only [List.singleton_append]
      rw [scanJ_plain c _ h1 h2 (by omega), ih rest]
      rfl
    by_cases h9 : c.toNat < 65536
    · rw [show escChar c = uEsc c.toNat from by
        simp only [escChar, if_neg h1, if_neg h2, if_neg h3, if_neg h4, if_neg h5,
          if_neg h6, if_neg h7]
        rw [if_neg h8, if_pos h9]]
      rw [scanJ_uEsc c.toNat _ h9 (by omega) (by omega), ih rest, Char.ofNat_toNat]
      rfl
    · rw [show escChar c =
          uEsc (55296 + (c.toNat - 65536) / 1024) ++ uEsc (56320 + (c.toNat - 65536) % 1024)
        from by
        simp only [escChar, if_neg h1, if_neg h2, if_neg h3, if_neg h4, if_neg h5,
          if_neg h6, if_neg h7]
        rw [if_neg h8, if_neg h9]]
      rw [List.append_assoc, scanJ_surrogatePair c.toNat _ (by omega) (by omega),
        ih rest, Char.ofNat_toNat]
      rfl

theorem expectChars_append (l r : List Char) : expectChars l (l ++ r) = some r := by
  induction l with
  | nil => rfl
  | cons c cs ih => simp [expectChars, ih]

theorem expectChars_self (l : List Char) : expectChars l l = some [] := by
  have h := expectChars_append l []
  rwa [List.append_nil] at h

/-- A `  "key": "value"` entry parses back to the unescaped value. -/
theorem parseField_shape (key f r : List Char) :
    parseField key (jsonKey key ++ (escStr f ++ r)) = some (f, r) := by
  have h1 : jsonKey key ++ (escStr f ++ r) =
      (jsonKey key ++ ['"']) ++ (f.flatMap escChar ++ '"' :: r) := by
    simp [escStr, List.append_assoc]
  rw [parseField, h1, expectChars_append]
  exact scanJString_escBody f r

/-- C9: `Pin.write` round-trips — parsing the written bytes yields exactly
the six data field values; the output is independent of the transient
`filename` field; it ends with a newline; and rewriting (which truncates
and rewrites wholesale) is insensitive to the previous file contents, so
writing the same `Pin` twice produces byte-identical output. -/
theorem pin_roundtrip (p : Pin) :
    parsePinJson (pinJson p) =
      some ⟨p.serverVersion, p.uiVersion, p.serverSha256, p.serverCargoSha256,
            p.uiSha256, p.uiYarnDepsSha256⟩
    ∧ (∀ fn, pinJson { p with filename := fn } = pinJson p)
    ∧ (pinJson p).getLast? = some '\n'
    ∧ (∀ prev prev2, pinWriteFile p prev = pinWriteFile p prev2) := by
  refine ⟨?_, fun fn => rfl, ?_, fun prev prev2 => rfl⟩
  · simp only [parsePinJson, pinJson, List.append_assoc, expectChars_append,
      parseField_shape, Option.bind_eq_bind, Option.some_bind, expectChars_self]
    rfl
  · rw [pinJson, List.getLast?_append]
    rfl
/-! ## C3: orchestration write order -/

/-- C3 counterexample: in a concrete successful run no write of a record
with all four checksum fields empty happens before the first checksum
acquisition — the Pin is *not* persisted right after construction. -/
theorem orchestrator_write_order_counterexample :
    persistedBeforeFirstAcq (mainRun envEx ("0.1.0".data) ("0.2.0".data)) = false := by
  decide

/-- C3 as amended: for every environment and resolved versions, the run
never writes an all-empty-checksums record before the first acquisition;
its first action is the server source prefetch, and the first write (the
second event) already carries the server checksum, the other three
checksum fields still empty. -/
theorem orchestrator_write_order_amended (env : Env) (sv uv : List Char) :
    persistedBeforeFirstAcq (mainRun env sv uv) = false
    ∧ (mainRun env sv uv).take 2 =
      [.prefetchCall ownerStr serverRepoStr sv,
       .writeRec { serverVersion := sv, uiVersion := uv,
                   serverSha256 := prefetchGithubRun env ownerStr serverRepoStr sv,
                   serverCargoSha256 := [], uiSha256 := [], uiYarnDepsSha256 := [],
                   filename := some pinPath }] := by
  unfold mainRun make_server_pin_run
  cases get_fod_hash (env.fodRc ("lemmy-server".data)) (env.fodStderr ("lemmy-server".data)) with
  | ok h => exact ⟨rfl, rfl⟩
  | error e => exact ⟨rfl, rfl⟩

/-! ## C1 groundwork: the tag comparison is a total preorder on parse
results

The sort key ordering is python-semver's `compare`.  Its `_nat_cmp` is not
transitive on arbitrary strings (the final length tiebreak misbehaves on
numeric identifiers with leading zeros), but every string it is applied to
here came out of `Version.parse`, whose prerelease grammar forbids exactly
those; on valid prerelease strings the comparison agrees with the
lexicographic order on converted identifier lists, which is transitive. -/

theorem pyCmp_lt_iff (a b : Nat) : pyCmp a b = .lt ↔ a < b := by
  unfold pyCmp
  split
  · simp [*]
  · split <;> simp <;> omega

theorem pyCmp_gt_iff (a b : Nat) : pyCmp a b = .gt ↔ b < a := by
  unfold pyCmp
  split
  · constructor
    · intro h; cases h
    · omega
  · split <;> simp <;> omega

theorem pyCmp_eq_iff (a b : Nat) : pyCmp a b = .eq ↔ a = b := by
  unfold pyCmp
  split
  · constructor
    · intro h; cases h
    · omega
  · split
    · constructor
      · intro h; cases h
      · omega
    · simp; omega

theorem pyCmp_refl (a : Nat) : pyCmp a a = .eq := (pyCmp_eq_iff a a).mpr rfl

theorem pyCmp_swap (a b : Nat) : pyCmp b a = (pyCmp a b).swap := by
  rcases h : pyCmp a b with _ | _ | _
  · rw [(pyCmp_gt_iff b a).mpr ((pyCmp_lt_iff a b).mp h)]; rfl
  · rw [(pyCmp_eq_iff b a).mpr ((pyCmp_eq_iff a b).mp h).symm]; rfl
  · rw [(pyCmp_lt_iff b a).mpr ((pyCmp_gt_iff a b).mp h)]; rfl

/-- Abstract interface of a law-abiding three-way comparison. -/
structure IsCmp (cmp : α → α → Ordering) : Prop where
  eq_iff : ∀ x y, cmp x y = .eq ↔ x = y
  swap : ∀ x y, cmp y x = (cmp x y).swap
  lt_trans : ∀ x y z, cmp x y = .lt → cmp y z = .lt → cmp x z = .lt

theorem IsCmp.refl {cmp : α → α → Ordering} (h : IsCmp cmp) (x : α) : cmp x x = .eq :=
  (h.eq_iff x x).mpr rfl

theorem IsCmp.gt_iff {cmp : α → α → Ordering} (h : IsCmp cmp) (x y : α) :
    cmp x y = .gt ↔ cmp y x = .lt := by
  rw [h.swap y x]
  rcases e : cmp y x with _ | _ | _ <;> simp [Ordering.swap]

/-- `≠ .gt` (that is, `≤`) is transitive for a law-abiding comparison. -/
theorem IsCmp.le_trans {cmp : α → α → Ordering} (h : IsCmp cmp) (x y z : α)
    (h1 : cmp x y ≠ .gt) (h2 : cmp y z ≠ .gt) : cmp x z ≠ .gt := by
  rcases e1 : cmp x y with _ | _ | _
  · rcases e2 : cmp y z with _ | _ | _
    · rw [(h.lt_trans x y z e1 e2)]; simp
    · rw [(h.eq_iff y z).mp e2] at e1; rw [e1]; simp
    · exact absurd e2 h2
  · rw [(h.eq_iff x y).mp e1]; exact h2
  · exact absurd e1 h1

theorem charCmp_isCmp : IsCmp charCmp := by
  refine ⟨fun x y => ?_, fun x y => pyCmp_swap _ _, fun x y z h1 h2 => ?_⟩
  · unfold charCmp
    rw [pyCmp_eq_iff]
    constructor
    · intro h
      rw [← Char.ofNat_toNat x, ← Char.ofNat_toNat y, h]
    · intro h; rw [h]
  · unfold charCmp at *
    rw [pyCmp_lt_iff] at *
    omega

theorem lexCmp_nil_nil {cmp : α → α → Ordering} : lexCmp cmp [] [] = .eq := rfl

theorem lexCmp_nil_cons {cmp : α → α → Ordering} (b : α) (bs : List α) :
    lexCmp cmp [] (b :: bs) = .lt := rfl

theorem lexCmp_cons_nil {cmp : α → α → Ordering} (a : α) (as : List α) :
    lexCmp cmp (a :: as) [] = .gt := rfl

theorem lexCmp_cons_cons {cmp : α → α → Ordering} (a b : α) (as bs : List α) :
    lexCmp cmp (a :: as) (b :: bs) = (cmp a b).then (lexCmp cmp as bs) := by
  rcases h : cmp a b with _ | _ | _ <;> simp [lexCmp, h, Ordering.then]

/-- Lexicographic lifting preserves the comparison laws. -/
theorem lexCmp_isCmp {cmp : α → α → Ordering} (hc : IsCmp cmp) : IsCmp (lexCmp cmp) := by
  refine ⟨?_, ?_, ?_⟩
  · intro x
    induction x with
    | nil =>
      intro y
      cases y with
      | nil => simp [lexCmp_nil_nil]
      | cons b bs => simp [lexCmp_nil_cons]
    | cons a as ih =>
      intro y
      cases y with
      | nil => simp [lexCmp_cons_nil]
      | cons b bs =>
        rw [lexCmp_cons_cons]
        rcases h : cmp a b with _ | _ | _
        · simp only [Ordering.then]
          constructor
          · intro hx; cases hx
          · intro hx
            injection hx with h1 h2
            subst h1
            rw [hc.refl a] at h
            cases h
        · have hab : a = b := (hc.eq_iff a b).mp h
          subst hab
          simp only [Ordering.then]
          rw [ih bs]
          simp
        · simp only [Ordering.then]
          constructor
          · intro hx; cases hx
          · intro hx
            injection hx with h1 h2
            subst h1
            rw [hc.refl a] at h
            cases h
  · intro x
    induction x with
    | nil =>
      intro y
      cases y with
      | nil => rfl
      | cons b bs => rfl
    | cons a as ih =>
      intro y
      cases y with
      | nil => rfl
      | cons b bs =>
        rw [lexCmp_cons_cons, lexCmp_cons_cons, hc.swap a b, ih bs]
        rcases cmp a b with _ | _ | _ <;> rcases lexCmp cmp as bs with _ | _ | _ <;> rfl
  · intro x
    induction x with
    | nil =>
      intro y z h1 h2
      cases y with
      | nil => exact h2
      | cons b bs =>
        cases z with
        | nil => rw [lexCmp_cons_nil] at h2; cases h2
        | cons c cs => exact lexCmp_nil_cons c cs
    | cons a as ih =>
      intro y z h1 h2
      cases y with
      | nil => rw [lexCmp_cons_nil] at h1; cases h1
      | cons b bs =>
        cases z with
        | nil => rw [lexCmp_cons_nil] at h2; cases h2
        | cons c cs =>
          rw [lexCmp_cons_cons] at h1 h2 ⊢
          rcases e1 : cmp a b with _ | _ | _ <;> rw [e1] at h1 <;>
            simp only [Ordering.then] at h1
          · rcases e2 : cmp b c with _ | _ | _ <;> rw [e2] at h2 <;>
              simp only [Ordering.then] at h2
            · rw [hc.lt_trans a b c e1 e2]; rfl
            · have : b = c := (hc.eq_iff b c).mp e2
              subst this
              rw [e1]; rfl
            · cases h2
          · have : a = b := (hc.eq_iff a b).mp e1
            subst this
            rcases e2 : cmp a c with _ | _ | _ <;> rw [e2] at h2 <;>
              simp only [Ordering.then] at h2
            · rfl
            · simp only [Ordering.then]
              exact ih bs cs h1 h2
            · cases h2
          · cases h1

theorem pcmp_isCmp : IsCmp pcmp := by
  have hl := lexCmp_isCmp charCmp_isCmp
  refine ⟨?_, ?_, ?_⟩
  · intro x y
    cases x <;> cases y <;> simp only [pcmp]
    · rw [pyCmp_eq_iff]; simp
    · constructor
      · intro h; cases h
      · intro h; cases h
    · constructor
      · intro h; cases h
      · intro h; cases h
    · rw [hl.eq_iff]; simp
  · intro x y
    cases x <;> cases y <;> simp only [pcmp]
    · rw [pyCmp_swap]
    · rfl
    · rfl
    · rw [hl.swap]
  · intro x y z h1 h2
    cases x <;> cases y <;> cases z <;> simp only [pcmp] at h1 h2 ⊢
    · rw [pyCmp_lt_iff] at *; omega
    · cases h2
    · cases h1
    · cases h1
    · cases h2
    · exact hl.lt_trans _ _ _ h1 h2

theorem zipWalk_nil_left (B : List PreId) : zipWalk [] B = .eq := by
  cases B <;> rfl

theorem zipWalk_nil_right (A : List PreId) : zipWalk A [] = .eq := by
  cases A <;> rfl

theorem zipWalk_cons_cons (a b : PreId) (as bs : List PreId) :
    zipWalk (a :: as) (b :: bs) = (pcmp a b).then (zipWalk as bs) := by
  rcases h : pcmp a b with _ | _ | _ <;> simp [zipWalk, h, Ordering.then]

theorem pyCmp_succ_succ (a b : Nat) : pyCmp (a + 1) (b + 1) = pyCmp a b := by
  unfold pyCmp
  simp [Nat.add_lt_add_iff_right]

/-- `_nat_cmp`'s zip walk followed by its length tiebreak, expressed
against the genuine lexicographic comparison of the converted parts. -/
theorem lexCmp_as_zipWalk (A : List PreId) :
    ∀ B : List PreId,
      lexCmp pcmp A B = (zipWalk A B).then (pyCmp A.length B.length) := by
  induction A with
  | nil =>
    intro B
    cases B with
    | nil => rfl
    | cons b bs =>
      rw [lexCmp_nil_cons, zipWalk_nil_left]
      simp only [List.length_nil, List.length_cons]
      rw [(pyCmp_lt_iff 0 (bs.length + 1)).mpr (by omega)]
      rfl
  | cons a as ih =>
    intro B
    cases B with
    | nil =>
      rw [lexCmp_cons_nil, zipWalk_nil_right]
      simp only [List.length_nil, List.length_cons]
      rw [(pyCmp_gt_iff (as.length + 1) 0).mpr (by omega)]
      rfl
    | cons b bs =>
      rw [lexCmp_cons_cons, zipWalk_cons_cons, List.length_cons, List.length_cons,
        pyCmp_succ_succ, ih bs]
      rcases pcmp a b with _ | _ | _ <;>
        rcases zipWalk as bs with _ | _ | _ <;> rfl

/-! ### Valid identifiers are determined by their converted value -/

theorem digit_toNat_bounds (c : Char) (h : c.isDigit = true) :
    48 ≤ c.toNat ∧ c.toNat ≤ 57 := by
  unfold Char.isDigit at h
  simp only [Bool.and_eq_true, decide_eq_true_eq] at h
  exact h

theorem digitVal_lt (c : Char) (h : c.isDigit = true) : digitVal c < 10 := by
  have := digit_toNat_bounds c h
  unfold digitVal
  omega

theorem digitVal_inj (c e : Char) (hc : c.isDigit = true) (he : e.isDigit = true)
    (h : digitVal c = digitVal e) : c = e := by
  have h1 := digit_toNat_bounds c hc
  have h2 := digit_toNat_bounds e he
  have : c.toNat = e.toNat := by unfold digitVal at h; omega
  rw [← Char.ofNat_toNat c, ← Char.ofNat_toNat e, this]

theorem digitVal_eq_zero (c : Char) (hc : c.isDigit = true) :
    digitVal c = 0 ↔ c = '0' := by
  constructor
  · intro h
    have h1 := digit_toNat_bounds c hc
    have : c.toNat = 48 := by unfold digitVal at h; omega
    rw [← Char.ofNat_toNat c, this]
  · intro h; subst h; rfl

theorem map_digitVal_inj (cs : List Char) :
    ∀ es : List Char, (∀ c ∈ cs, c.isDigit = true) → (∀ c ∈ es, c.isDigit = true) →
      cs.map digitVal = es.map digitVal → cs = es := by
  induction cs with
  | nil =>
    intro es _ _ h
    cases es with
    | nil => rfl
    | cons e es' => cases h
  | cons c cs' ih =>
    intro es hc he h
    cases es with
    | nil => cases h
    | cons e es' =>
      simp only [List.map_cons, List.cons.injEq] at h
      rw [digitVal_inj c e (hc c (by simp)) (he e (by simp)) h.1,
        ih es' (fun x hx => hc x (by simp [hx])) (fun x hx => he x (by simp [hx])) h.2]

theorem charsToNat_acc (cs : List Char) :
    ∀ acc : Nat, cs.foldl (fun a c => a * 10 + digitVal c) acc =
      acc * 10 ^ cs.length + Nat.ofDigits 10 ((cs.map digitVal).reverse) := by
  induction cs with
  | nil => intro acc; simp [Nat.ofDigits_nil]
  | cons c cs' ih =>
    intro acc
    simp only [List.foldl_cons, List.map_cons, List.reverse_cons, List.length_cons]
    rw [ih (acc * 10 + digitVal c), Nat.ofDigits_append, Nat.ofDigits_singleton]
    simp only [List.length_reverse, List.length_map]
    ring

theorem charsToNat_eq_ofDigits (cs : List Char) :
    charsToNat cs = Nat.ofDigits 10 ((cs.map digitVal).reverse) := by
  have h := charsToNat_acc cs 0
  simpa [charsToNat] using h

theorem digits_of_charsToNat (cs : List Char) (hne : cs ≠ [])
    (hdig : ∀ c ∈ cs, c.isDigit = true) (hz : cs.head? ≠ some '0') :
    Nat.digits 10 (charsToNat cs) = (cs.map digitVal).reverse := by
  rw [charsToNat_eq_ofDigits]
  refine Nat.digits_ofDigits 10 (by norm_num) _ ?_ ?_
  · intro d hd
    rw [List.mem_reverse, List.mem_map] at hd
    obtain ⟨c, hc, rfl⟩ := hd
    exact digitVal_lt c (hdig c hc)
  · intro hL
    rcases cs with _ | ⟨c, cs'⟩
    · exact absurd rfl hne
    · have hlast : ((c :: cs').map digitVal).reverse.getLast hL = digitVal c := by
        have h1 : ((c :: cs').map digitVal).reverse.getLast? = some (digitVal c) := by
          rw [List.getLast?_reverse]
          rfl
        rw [List.getLast?_eq_getLast _ hL] at h1
        exact (Option.some.injEq _ _).mp h1
      rw [hlast]
      intro h0
      exact hz (by
        rw [(digitVal_eq_zero c (hdig c (by simp))).mp h0]
        rfl)

theorem charsToNat_pos (cs : List Char) (hne : cs ≠ [])
    (hdig : ∀ c ∈ cs, c.isDigit = true) (hz : cs.head? ≠ some '0') :
    0 < charsToNat cs := by
  by_contra h
  have h0 : charsToNat cs = 0 := by omega
  have hd := digits_of_charsToNat cs hne hdig hz
  rw [h0, Nat.digits_zero] at hd
  rcases cs with _ | ⟨c, cs'⟩
  · exact absurd rfl hne
  · simp at hd

theorem validNumCore_spec (cs : List Char) (h : validNumCore cs = true) :
    cs ≠ [] ∧ (cs = ['0'] ∨ cs.head? ≠ some '0') := by
  unfold validNumCore at h
  simp only [Bool.and_eq_true, Bool.or_eq_true, Bool.not_eq_true', decide_eq_true_eq,
    bne_iff_ne] at h
  obtain ⟨h1, h2⟩ := h
  refine ⟨fun hnil => ?_, h2⟩
  rw [hnil] at h1
  cases h1

theorem charsToNat_canonical_inj (cs es : List Char)
    (hcd : ∀ c ∈ cs, c.isDigit = true) (hed : ∀ c ∈ es, c.isDigit = true)
    (hc : validNumCore cs = true) (he : validNumCore es = true)
    (h : charsToNat cs = charsToNat es) : cs = es := by
  have hc' := validNumCore_spec cs hc
  have he' := validNumCore_spec es he
  by_cases hcz : cs = ['0'] <;> by_cases hez : es = ['0']
  · rw [hcz, hez]
  · exfalso
    have hzes : es.head? ≠ some '0' := by tauto
    have hpos := charsToNat_pos es he'.1 hed hzes
    rw [hcz] at h
    have : charsToNat ['0'] = 0 := by decide
    omega
  · exfalso
    have hzcs : cs.head? ≠ some '0' := by tauto
    have hpos := charsToNat_pos cs hc'.1 hcd hzcs
    rw [hez] at h
    have : charsToNat ['0'] = 0 := by decide
    omega
  · have hzcs : cs.head? ≠ some '0' := by tauto
    have hzes : es.head? ≠ some '0' := by tauto
    have hd1 := digits_of_charsToNat cs hc'.1 hcd hzcs
    have hd2 := digits_of_charsToNat es he'.1 hed hzes
    rw [h, hd2] at hd1
    have hmap : es.map digitVal = cs.map digitVal := List.reverse_injective hd1
    exact (map_digitVal_inj es cs hed hcd hmap).symm

theorem convertId_inj (a b : List Char) (ha : validPreIdent a = true)
    (hb : validPreIdent b = true) (h : convertId a = convertId b) : a = b := by
  unfold convertId at h
  by_cases hda : (!a.isEmpty && a.all Char.isDigit) = true <;>
    by_cases hdb : (!b.isEmpty && b.all Char.isDigit) = true
  · rw [if_pos hda, if_pos hdb] at h
    injection h with hnum
    simp only [Bool.and_eq_true, Bool.not_eq_true'] at hda hdb
    have hva : validNumCore a = true := by
      unfold validPreIdent at ha
      simp only [Bool.and_eq_true, Bool.or_eq_true, Bool.not_eq_true'] at ha
      rcases ha.2 with h' | h'
      · rw [hda.2] at h'; cases h'
      · exact h'
    have hvb : validNumCore b = true := by
      unfold validPreIdent at hb
      simp only [Bool.and_eq_true, Bool.or_eq_true, Bool.not_eq_true'] at hb
      rcases hb.2 with h' | h'
      · rw [hdb.2] at h'; cases h'
      · exact h'
    exact charsToNat_canonical_inj a b (List.all_eq_true.mp hda.2) (List.all_eq_true.mp hdb.2)
      hva hvb hnum
  · rw [if_pos hda, if_neg hdb] at h; cases h
  · rw [if_neg hda, if_pos hdb] at h; cases h
  · rw [if_neg hda, if_neg hdb] at h
    injection h

/-! ### Split/join identities -/

theorem splitOnChar_ne_nil (sep : Char) (l : List Char) : splitOnChar sep l ≠ [] := by
  cases l with
  | nil => simp [splitOnChar]
  | cons c cs =>
    simp only [splitOnChar]
    split
    · simp
    · split <;> simp

theorem splitOnChar_cons_sep (sep : Char) (cs : List Char) :
    splitOnChar sep (sep :: cs) = [] :: splitOnChar sep cs := by
  simp [splitOnChar]

theorem splitOnChar_cons_ne (sep c : Char) (cs t : List Char) (ts : List (List Char))
    (h : ¬ c = sep) (he : splitOnChar sep cs = t :: ts) :
    splitOnChar sep (c :: cs) = (c :: t) :: ts := by
  simp [splitOnChar, h, he]

theorem joinChar_cons (sep : Char) (l : List Char) (ls : List (List Char)) :
    joinChar sep (l :: ls) = l ++ ls.flatMap (fun x => sep :: x) := rfl

theorem flatMap_sep_cons (sep : Char) (t : List Char) (ts : List (List Char)) :
    (t :: ts).flatMap (fun x => sep :: x) = sep :: joinChar sep (t :: ts) := by
  simp [joinChar]

theorem joinChar_splitOnChar (sep : Char) (l : List Char) :
    joinChar sep (splitOnChar sep l) = l := by
  induction l with
  | nil => rfl
  | cons c cs ih =>
    rcases he : splitOnChar sep cs with _ | ⟨t, ts⟩
    · exact absurd he (splitOnChar_ne_nil sep cs)
    · by_cases h : c = sep
      · subst h
        rw [splitOnChar_cons_sep, joinChar_cons, he, flatMap_sep_cons, ← he, ih]
        rfl
      · rw [splitOnChar_cons_ne sep c cs t ts h he, joinChar_cons,
          show (c :: t) ++ ts.flatMap (fun x => sep :: x) =
            c :: (t ++ ts.flatMap fun x => sep :: x) from rfl,
          ← joinChar_cons, ← he, ih]

theorem joinChar_append_left (sep : Char) (A C : List (List Char)) (hA : A ≠ []) :
    joinChar sep (A ++ C) = joinChar sep A ++ C.flatMap (fun x => sep :: x) := by
  rcases A with _ | ⟨a, A'⟩
  · exact absurd rfl hA
  · simp [joinChar, List.flatMap_append, List.append_assoc]

theorem flatMap_sep_length_pos (sep : Char) (C : List (List Char)) (hC : C ≠ []) :
    0 < (C.flatMap fun x => sep :: x).length := by
  rcases C with _ | ⟨x, C'⟩
  · exact absurd rfl hC
  · simp

theorem zipWalk_eq_prefix (A : List (List Char)) :
    ∀ B : List (List Char), (∀ a ∈ A, validPreIdent a = true) →
      (∀ b ∈ B, validPreIdent b = true) →
      zipWalk (A.map convertId) (B.map convertId) = .eq → A <+: B ∨ B <+: A := by
  induction A with
  | nil => intro B _ _ _; exact Or.inl List.nil_prefix
  | cons a A' ih =>
    intro B hA hB h
    cases B with
    | nil => exact Or.inr List.nil_prefix
    | cons b B' =>
      rw [List.map_cons, List.map_cons, zipWalk_cons_cons] at h
      rcases e : pcmp (convertId a) (convertId b) with _ | _ | _ <;> rw [e] at h <;>
        simp only [Ordering.then] at h
      · cases h
      · have hab : a = b := convertId_inj a b (hA a (by simp)) (hB b (by simp))
          ((pcmp_isCmp.eq_iff _ _).mp e)
        subst hab
        rcases ih B' (fun x hx => hA x (by simp [hx])) (fun x hx => hB x (by simp [hx])) h with
          hp | hp
        · exact Or.inl (List.cons_prefix_cons.mpr ⟨rfl, hp⟩)
        · exact Or.inr (List.cons_prefix_cons.mpr ⟨rfl, hp⟩)
      · cases h

theorem preValid_mem (p : List Char) (hp : preValid p = true) :
    ∀ a ∈ splitOnChar '.' p, validPreIdent a = true := List.all_eq_true.mp hp

/-- On valid prerelease strings `_nat_cmp` is exactly the lexicographic
comparison of the converted identifier lists: the length tiebreak can only
trigger when one identifier list is a converted-equal prefix of the other,
and valid identifiers are determined by their converted values, making the
string lengths agree with the identifier-list lengths. -/
theorem natCmp_valid (p q : List Char) (hp : preValid p = true) (hq : preValid q = true) :
    natCmp p q = lexCmp pcmp (partsOf p) (partsOf q) := by
  rw [lexCmp_as_zipWalk]
  unfold natCmp
  rcases hz : zipWalk (partsOf p) (partsOf q) with _ | _ | _
  · rfl
  · simp only [Ordering.then]
    have hpre := zipWalk_eq_prefix (splitOnChar '.' p) (splitOnChar '.' q)
      (preValid_mem p hp) (preValid_mem q hq) hz
    rcases hpre with ⟨C, hC⟩ | ⟨C, hC⟩
    · rcases C with _ | ⟨c0, C'⟩
      · rw [List.append_nil] at hC
        have hpq : p = q := by
          rw [← joinChar_splitOnChar '.' p, ← joinChar_splitOnChar '.' q, hC]
        subst hpq
        rw [pyCmp_refl, pyCmp_refl]
      · have hCne : (c0 :: C') ≠ ([] : List (List Char)) := by simp
        have hq_eq : q = p ++ (c0 :: C').flatMap (fun x => '.' :: x) := by
          rw [← joinChar_splitOnChar '.' q, ← hC,
            joinChar_append_left '.' _ _ (splitOnChar_ne_nil '.' p), joinChar_splitOnChar]
        have hlen : p.length < q.length := by
          rw [hq_eq, List.length_append]
          have := flatMap_sep_length_pos '.' (c0 :: C') hCne
          omega
        have hplen : (partsOf p).length < (partsOf q).length := by
          unfold partsOf
          rw [← hC]
          simp
        rw [(pyCmp_lt_iff _ _).mpr hlen, (pyCmp_lt_iff _ _).mpr hplen]
    · rcases C with _ | ⟨c0, C'⟩
      · rw [List.append_nil] at hC
        have hpq : p = q := by
          rw [← joinChar_splitOnChar '.' p, ← joinChar_splitOnChar '.' q, hC]
        subst hpq
        rw [pyCmp_refl, pyCmp_refl]
      · have hCne : (c0 :: C') ≠ ([] : List (List Char)) := by simp
        have hp_eq : p = q ++ (c0 :: C').flatMap (fun x => '.' :: x) := by
          rw [← joinChar_splitOnChar '.' p, ← hC,
            joinChar_append_left '.' _ _ (splitOnChar_ne_nil '.' q), joinChar_splitOnChar]
        have hlen : q.length < p.length := by
          rw [hp_eq, List.length_append]
          have := flatMap_sep_length_pos '.' (c0 :: C') hCne
          omega
        have hplen : (partsOf q).length < (partsOf p).length := by
          unfold partsOf
          rw [← hC]
          simp
        rw [(pyCmp_gt_iff _ _).mpr hlen, (pyCmp_gt_iff _ _).mpr hplen]
  · rfl

/-! ### Every parse result has a valid prerelease -/

theorem parseTailAux_pre (pre : Option (List Char)) (r4 : List Char)
    (pre2 bld : Option (List Char)) (h : parseTailAux pre r4 = some (pre2, bld)) :
    pre2 = pre ∧ optPreValid pre = true := by
  cases r4 with
  | nil =>
    unfold parseTailAux at h
    by_cases hcond : optPreValid pre = true
    · rw [if_pos hcond] at h
      injection h with h'
      rw [Prod.mk.injEq] at h'
      exact ⟨h'.1.symm, hcond⟩
    · rw [if_neg hcond] at h
      cases h
  | cons c b =>
    rw [show parseTailAux pre (c :: b) =
        (if c = '+' then
          (if (optPreValid pre && buildValid b) = true then some (pre, some b) else none)
        else none) from rfl] at h
    by_cases hc : c = '+'
    · rw [if_pos hc] at h
      by_cases hcond : (optPreValid pre && buildValid b) = true
      · rw [if_pos hcond] at h
        injection h with h'
        rw [Prod.mk.injEq] at h'
        simp only [Bool.and_eq_true] at hcond
        exact ⟨h'.1.symm, hcond.1⟩
      · rw [if_neg hcond] at h
        cases h
    · rw [if_neg hc] at h
      cases h

theorem parseTail_pre (r3 : List Char) (pre bld : Option (List Char))
    (h : parseTail r3 = some (pre, bld)) : optPreValid pre = true := by
  cases r3 with
  | nil =>
    unfold parseTail at h
    obtain ⟨h1, h2⟩ := parseTailAux_pre _ _ _ _ h
    rw [h1]; exact h2
  | cons c r =>
    rw [show parseTail (c :: r) =
        (if c = '-' then
          parseTailAux (some (r.takeWhile fun x => x != '+')) (r.dropWhile fun x => x != '+')
        else parseTailAux none (c :: r)) from rfl] at h
    by_cases hc : c = '-'
    · rw [if_pos hc] at h
      obtain ⟨h1, h2⟩ := parseTailAux_pre _ _ _ _ h
      rw [h1]; exact h2
    · rw [if_neg hc] at h
      obtain ⟨h1, h2⟩ := parseTailAux_pre _ _ _ _ h
      rw [h1]; exact h2

theorem parseVersion_valid (cs : List Char) (v : Version) (h : parseVersion cs = some v) :
    versionPreValid v = true := by
  unfold parseVersion at h
  cases hp1 : parseNumDot cs with
  | none => rw [hp1] at h; cases h
  | some pr1 =>
    obtain ⟨maj, r1⟩ := pr1
    rw [hp1] at h
    simp only [Option.bind_eq_bind, Option.some_bind] at h
    cases hp2 : parseNumDot r1 with
    | none => rw [hp2] at h; cases h
    | some pr2 =>
      obtain ⟨mino, r2⟩ := pr2
      rw [hp2] at h
      simp only [Option.some_bind] at h
      cases hp3 : parseNumEnd r2 with
      | none => rw [hp3] at h; cases h
      | some pr3 =>
        obtain ⟨pat, r3⟩ := pr3
        rw [hp3] at h
        simp only [Option.some_bind] at h
        cases hp4 : parseTail r3 with
        | none => rw [hp4] at h; cases h
        | some pr4 =>
          obtain ⟨pre, bld⟩ := pr4
          rw [hp4] at h
          simp only [Option.some_bind, Option.pure_def, Option.some.injEq] at h
          subst h
          exact parseTail_pre r3 pre bld hp4

/-! ### `preCmp` on valid prereleases -/

theorem preValid_ne_nil (p : List Char) (hp : preValid p = true) : p ≠ [] := by
  intro h
  subst h
  exact absurd hp (by decide)

theorem preFalsy_some_false (p : List Char) (h : p ≠ []) : preFalsy (some p) = false := by
  cases p with
  | nil => exact absurd rfl h
  | cons c cs => rfl

theorem ordering_then_eq_right (o : Ordering) : o.then .eq = o := by
  rcases o <;> rfl

theorem natCmp_nil_left_ne_eq (q : List Char) (hq : preValid q = true) :
    natCmp [] q ≠ .eq := by
  unfold natCmp
  rcases he : splitOnChar '.' q with _ | ⟨t, ts⟩
  · exact absurd he (splitOnChar_ne_nil '.' q)
  · have hvt : validPreIdent t = true := preValid_mem q hq t (by rw [he]; simp)
    have htne : t ≠ [] := by
      intro h0
      rw [h0] at hvt
      cases hvt
    have hparts : partsOf [] = [PreId.str []] := rfl
    have hpq : partsOf q = convertId t :: ts.map convertId := by
      unfold partsOf
      rw [he, List.map_cons]
    rw [hparts, hpq, zipWalk_cons_cons, zipWalk_nil_left, ordering_then_eq_right]
    have hne : pcmp (.str []) (convertId t) ≠ .eq := by
      intro hcon
      have heq := (pcmp_isCmp.eq_iff _ _).mp hcon
      unfold convertId at heq
      by_cases hd : (!t.isEmpty && t.all Char.isDigit) = true
      · rw [if_pos hd] at heq; cases heq
      · rw [if_neg hd] at heq
        injection heq with h0
        exact htne h0.symm
    rcases hp : pcmp (.str []) (convertId t) with _ | _ | _
    · simp
    · exact absurd hp hne
    · simp

theorem natCmp_nil_right_ne_eq (p : List Char) (hp : preValid p = true) :
    natCmp p [] ≠ .eq := by
  unfold natCmp
  rcases he : splitOnChar '.' p with _ | ⟨t, ts⟩
  · exact absurd he (splitOnChar_ne_nil '.' p)
  · have hvt : validPreIdent t = true := preValid_mem p hp t (by rw [he]; simp)
    have htne : t ≠ [] := by
      intro h0
      rw [h0] at hvt
      cases hvt
    have hparts : partsOf [] = [PreId.str []] := rfl
    have hpq : partsOf p = convertId t :: ts.map convertId := by
      unfold partsOf
      rw [he, List.map_cons]
    rw [hparts, hpq, zipWalk_cons_cons, zipWalk_nil_right, ordering_then_eq_right]
    have hne : pcmp (convertId t) (.str []) ≠ .eq := by
      intro hcon
      have heq := (pcmp_isCmp.eq_iff _ _).mp hcon
      unfold convertId at heq
      by_cases hd : (!t.isEmpty && t.all Char.isDigit) = true
      · rw [if_pos hd] at heq; cases heq
      · rw [if_neg hd] at heq
        injection heq with h0
        exact htne h0
    rcases hp : pcmp (convertId t) (.str []) with _ | _ | _
    · simp
    · exact absurd hp hne
    · simp

theorem preCmp_none_none : preCmp none none = .eq := by decide

theorem preCmp_none_some (q : List Char) (hq : preValid q = true) :
    preCmp none (some q) = .gt := by
  unfold preCmp
  rw [if_neg (by exact natCmp_nil_left_ne_eq q hq),
    if_pos (show preFalsy none = true from rfl)]

theorem preCmp_some_none (p : List Char) (hp : preValid p = true) :
    preCmp (some p) none = .lt := by
  unfold preCmp
  rw [if_neg (by exact natCmp_nil_right_ne_eq p hp),
    preFalsy_some_false p (preValid_ne_nil p hp)]
  simp only [Bool.false_eq_true, if_false]
  rw [if_pos (show preFalsy none = true from rfl)]

theorem preCmp_some_some (p q : List Char) (hp : p ≠ []) (hq : q ≠ []) :
    preCmp (some p) (some q) = natCmp p q := by
  unfold preCmp
  by_cases h : natCmp p q = .eq
  · rw [if_pos (by exact h)]
    exact h.symm
  · rw [if_neg (by exact h), preFalsy_some_false p hp, preFalsy_some_false q hq]
    simp only [Bool.false_eq_true, if_false]
    rfl

theorem preCmp_refl (a : Option (List Char)) (ha : optPreValid a = true) :
    preCmp a a = .eq := by
  cases a with
  | none => exact preCmp_none_none
  | some p =>
    have hp : preValid p = true := ha
    rw [preCmp_some_some p p (preValid_ne_nil p hp) (preValid_ne_nil p hp),
      natCmp_valid p p hp hp]
    exact (lexCmp_isCmp pcmp_isCmp).refl _

theorem preCmp_swap (a b : Option (List Char)) (ha : optPreValid a = true)
    (hb : optPreValid b = true) : preCmp b a = (preCmp a b).swap := by
  cases a with
  | none =>
    cases b with
    | none => rw [preCmp_none_none]; rfl
    | some q =>
      have hq : preValid q = true := hb
      rw [preCmp_none_some q hq, preCmp_some_none q hq]
      rfl
  | some p =>
    have hp : preValid p = true := ha
    cases b with
    | none =>
      rw [preCmp_none_some p hp, preCmp_some_none p hp]
      rfl
    | some q =>
      have hq : preValid q = true := hb
      rw [preCmp_some_some p q (preValid_ne_nil p hp) (preValid_ne_nil q hq),
        preCmp_some_some q p (preValid_ne_nil q hq) (preValid_ne_nil p hp),
        natCmp_valid p q hp hq, natCmp_valid q p hq hp]
      exact (lexCmp_isCmp pcmp_isCmp).swap _ _

theorem preCmp_le_trans (a b c : Option (List Char)) (ha : optPreValid a = true)
    (hb : optPreValid b = true) (hc : optPreValid c = true)
    (h1 : preCmp a b ≠ .gt) (h2 : preCmp b c ≠ .gt) : preCmp a c ≠ .gt := by
  have hl : IsCmp (lexCmp pcmp) := lexCmp_isCmp pcmp_isCmp
  cases a with
  | none =>
    cases c with
    | none => rw [preCmp_none_none]; simp
    | some r =>
      cases b with
      | none => exact absurd (preCmp_none_some r hc) h2
      | some q => exact absurd (preCmp_none_some q hb) h1
  | some p =>
    have hp : preValid p = true := ha
    cases c with
    | none =>
      rw [preCmp_some_none p hp]
      simp
    | some r =>
      have hr : preValid r = true := hc
      cases b with
      | none => exact absurd (preCmp_none_some r hc) h2
      | some q =>
        have hq : preValid q = true := hb
        rw [preCmp_some_some p q (preValid_ne_nil p hp) (preValid_ne_nil q hq),
          natCmp_valid p q hp hq] at h1
        rw [preCmp_some_some q r (preValid_ne_nil q hq) (preValid_ne_nil r hr),
          natCmp_valid q r hq hr] at h2
        rw [preCmp_some_some p r (preValid_ne_nil p hp) (preValid_ne_nil r hr),
          natCmp_valid p r hp hr]
        exact hl.le_trans _ _ _ h1 h2

/-! ### `vcmp` is a total preorder on parse results -/

theorem vcmp_ne_gt (v w : Version) : (vcmp v w ≠ .gt) ↔
    (v.major < w.major
     ∨ (v.major = w.major ∧ v.minor < w.minor)
     ∨ (v.major = w.major ∧ v.minor = w.minor ∧ v.patch < w.patch)
     ∨ (v.major = w.major ∧ v.minor = w.minor ∧ v.patch = w.patch ∧
        preCmp v.prerelease w.prerelease ≠ .gt)) := by
  unfold vcmp
  rcases h1 : pyCmp v.major w.major with _ | _ | _
  · rw [pyCmp_lt_iff] at h1
    constructor
    · intro _; exact Or.inl h1
    · intro _; simp
  · rw [pyCmp_eq_iff] at h1
    rcases h2 : pyCmp v.minor w.minor with _ | _ | _
    · rw [pyCmp_lt_iff] at h2
      constructor
      · intro _; exact Or.inr (Or.inl ⟨h1, h2⟩)
      · intro _; simp
    · rw [pyCmp_eq_iff] at h2
      rcases h3 : pyCmp v.patch w.patch with _ | _ | _
      · rw [pyCmp_lt_iff] at h3
        constructor
        · intro _; exact Or.inr (Or.inr (Or.inl ⟨h1, h2, h3⟩))
        · intro _; simp
      · rw [pyCmp_eq_iff] at h3
        constructor
        · intro h; exact Or.inr (Or.inr (Or.inr ⟨h1, h2, h3, h⟩))
        · intro h
          rcases h with h | ⟨e, h⟩ | ⟨e, f, h⟩ | ⟨e, f, g, h⟩
          · omega
          · omega
          · omega
          · exact h
      · rw [pyCmp_gt_iff] at h3
        constructor
        · intro h; exact absurd rfl h
        · intro h
          exfalso
          rcases h with h | ⟨e, h⟩ | ⟨e, f, h⟩ | ⟨e, f, g, _⟩ <;> omega
    · rw [pyCmp_gt_iff] at h2
      constructor
      · intro h; exact absurd rfl h
      · intro h
        exfalso
        rcases h with h | ⟨e, h⟩ | ⟨e, f, h⟩ | ⟨e, f, g, _⟩ <;> omega
  · rw [pyCmp_gt_iff] at h1
    constructor
    · intro h; exact absurd rfl h
    · intro h
      exfalso
      rcases h with h | ⟨e, h⟩ | ⟨e, f, h⟩ | ⟨e, f, g, _⟩ <;> omega

theorem vcmp_le_trans (u v w : Version) (hu : versionPreValid u = true)
    (hv : versionPreValid v = true) (hw : versionPreValid w = true)
    (h1 : vcmp u v ≠ .gt) (h2 : vcmp v w ≠ .gt) : vcmp u w ≠ .gt := by
  rw [vcmp_ne_gt] at h1 h2 ⊢
  have expand : ∀ {A B C D : Prop}, (A ∨ B ∨ C) → (A ∨ B ∨ C ∨ D) :=
    fun h => h.imp id (Or.imp id Or.inl)
  rcases h1 with h1 | ⟨e1, h1⟩ | ⟨e1, e2, h1⟩ | ⟨e1, e2, e3, hp1⟩ <;>
    rcases h2 with h2 | ⟨f1, h2⟩ | ⟨f1, f2, h2⟩ | ⟨f1, f2, f3, hp2⟩ <;>
    first
      | exact expand (by omega)
      | exact Or.inr (Or.inr (Or.inr ⟨by omega, by omega, by omega,
          preCmp_le_trans _ _ _ hu hv hw hp1 hp2⟩))

theorem vcmp_swap_valid (v w : Version) (hv : versionPreValid v = true)
    (hw : versionPreValid w = true) : vcmp w v = (vcmp v w).swap := by
  unfold vcmp
  rw [pyCmp_swap v.major w.major, pyCmp_swap v.minor w.minor, pyCmp_swap v.patch w.patch,
    preCmp_swap v.prerelease w.prerelease hv hw]
  rcases pyCmp v.major w.major <;> rcases pyCmp v.minor w.minor <;>
    rcases pyCmp v.patch w.patch <;> rcases preCmp v.prerelease w.prerelease <;> rfl

theorem vcmp_refl_valid (v : Version) (hv : versionPreValid v = true) : vcmp v v = .eq := by
  unfold vcmp
  rw [pyCmp_refl, pyCmp_refl, pyCmp_refl, preCmp_refl v.prerelease hv]

theorem vcmp_lt_iff_gt (x y : Version) (hx : versionPreValid x = true)
    (hy : versionPreValid y = true) : vcmp y x = .lt ↔ vcmp x y = .gt := by
  rw [vcmp_swap_valid x y hx hy]
  rcases vcmp x y with _ | _ | _ <;> simp [Ordering.swap]

/-! ### The sort ordering -/

theorem keyOf_valid (s : List Char) : versionPreValid (keyOf s) = true := by
  unfold keyOf
  cases h : parseVersion s with
  | none => rfl
  | some v =>
    simp only [Option.getD_some]
    exact parseVersion_valid s v h

theorem tagLe_eq_true_iff (a b : List Char) :
    tagLe a b = true ↔ vcmp (keyOf b) (keyOf a) ≠ .lt := by
  unfold tagLe
  rcases h : vcmp (keyOf b) (keyOf a) with _ | _ | _ <;> decide

theorem tagLe_trans (a b c : List Char) (h1 : tagLe a b = true) (h2 : tagLe b c = true) :
    tagLe a c = true := by
  rw [tagLe_eq_true_iff] at h1 h2 ⊢
  have ha := keyOf_valid a
  have hb := keyOf_valid b
  have hc := keyOf_valid c
  have h1' : vcmp (keyOf a) (keyOf b) ≠ .gt :=
    fun hg => h1 ((vcmp_lt_iff_gt (keyOf a) (keyOf b) ha hb).mpr hg)
  have h2' : vcmp (keyOf b) (keyOf c) ≠ .gt :=
    fun hg => h2 ((vcmp_lt_iff_gt (keyOf b) (keyOf c) hb hc).mpr hg)
  have h3 := vcmp_le_trans (keyOf a) (keyOf b) (keyOf c) ha hb hc h1' h2'
  exact fun hl => h3 ((vcmp_lt_iff_gt (keyOf a) (keyOf c) ha hc).mp hl)

theorem tagLe_total (a b : List Char) : (tagLe a b || tagLe b a) = true := by
  by_cases h : vcmp (keyOf b) (keyOf a) = .lt
  · have hg : vcmp (keyOf a) (keyOf b) = .gt :=
      (vcmp_lt_iff_gt (keyOf a) (keyOf b) (keyOf_valid a) (keyOf_valid b)).mp h
    have hba : tagLe b a = true := by
      rw [tagLe_eq_true_iff, hg]
      simp
    rw [hba]
    simp
  · have hab : tagLe a b = true := (tagLe_eq_true_iff a b).mpr h
    rw [hab]
    simp

/-- In a pairwise-related list, every element is the last one or related to
it. -/
theorem pairwise_getLast {α : Type} {R : α → α → Prop} :
    ∀ {l : List α} {y : α}, l.Pairwise R → l.getLast? = some y →
      ∀ x ∈ l, x = y ∨ R x y := by
  intro l
  induction l with
  | nil => intro y _ h; cases h
  | cons a t ih =>
    intro y hp hl x hx
    cases t with
    | nil =>
      rw [List.getLast?_singleton] at hl
      injection hl with hy
      subst hy
      rcases List.mem_singleton.mp hx with rfl
      exact Or.inl rfl
    | cons b t' =>
      rw [List.getLast?_cons_cons] at hl
      rcases List.mem_cons.mp hx with rfl | hx'
      · have hy : y ∈ b :: t' := by
          rcases List.getLast?_eq_some_iff.mp hl with ⟨ys, hys⟩
          rw [hys]
          simp
        exact Or.inr ((List.pairwise_cons.mp hp).1 y hy)
      · exact ih (List.pairwise_cons.mp hp).2 hl x hx'

/-! ## C1: the returned tag is the filtered maximum -/

/-- C1: whenever `get_latest_tag` returns a tag, that tag parses as a
semantic version, it survived the prerelease filter, it occurs in the
paginated listing, and it is maximal under python-semver ordering among
all listed tags that parse and survive the filter — so an unparseable tag
is never returned, whatever the input order. -/
theorem latestTag_max (pages : Pages) (prerelease : Bool) (name : List Char)
    (h : get_latest_tag pages prerelease = .ok name) :
    (parseVersion name).isSome = true
    ∧ keptTag prerelease name = true
    ∧ name ∈ rawTags pages
    ∧ ∀ t ∈ rawTags pages, keptTag prerelease t = true →
        vcmp (keyOf name) (keyOf t) ≠ .lt := by
  rw [get_latest_tag_elim] at h
  cases hl : ((collectedTags pages prerelease).mergeSort tagLe).getLast? with
  | none => rw [hl] at h; cases h
  | some t =>
    rw [hl] at h
    have ht : (Except.ok t : Except TagError (List Char)) = .ok name := h
    injection ht with ht'
    subst ht'
    have hmem : t ∈ (collectedTags pages prerelease).mergeSort tagLe := by
      rcases List.getLast?_eq_some_iff.mp hl with ⟨ys, hys⟩
      rw [hys]
      simp
    have hfil : collectedTags pages prerelease = (rawTags pages).filter (keptTag prerelease) :=
      tagPagesLoop_filter pages prerelease 101 0
    have hmem2 : t ∈ (rawTags pages).filter (keptTag prerelease) := by
      rw [← hfil]
      exact List.mem_mergeSort.mp hmem
    have hkept := (List.mem_filter.mp hmem2).2
    have hraw := (List.mem_filter.mp hmem2).1
    refine ⟨?_, hkept, hraw, ?_⟩
    · unfold keptTag at hkept
      cases hp : parseVersion t with
      | none => rw [hp] at hkept; cases hkept
      | some v => rfl
    · intro x hx hkx
      have hx2 : x ∈ (collectedTags pages prerelease).mergeSort tagLe := by
        rw [List.mem_mergeSort, hfil, List.mem_filter]
        exact ⟨hx, hkx⟩
      have hsorted := List.sorted_mergeSort tagLe_trans tagLe_total
        (collectedTags pages prerelease)
      rcases pairwise_getLast hsorted hl x hx2 with heq | hle
      · rw [heq, vcmp_refl_valid (keyOf t) (keyOf_valid t)]
        simp
      · rw [← tagLe_eq_true_iff]
        exact hle

/-- Witness for C1 at a one-page, one-tag listing. -/
theorem latestTag_max_witness :
    get_latest_tag c1pages false = .ok ("1.0.5".data)
    ∧ (parseVersion ("1.0.5".data)).isSome = true
    ∧ "1.0.5".data ∈ rawTags c1pages := by
  have h : get_latest_tag c1pages false = .ok ("1.0.5".data) := by
    have hc : collectedTags c1pages false = ["1.0.5".data] := by decide
    rw [get_latest_tag_elim, hc]
    simp
  have hm := latestTag_max c1pages false ("1.0.5".data) h
  exact ⟨h, hm.1, hm.2.2.1⟩

end LemmyUpdate
